import Mathlib

/-!
Verification of `metro_navigator.py`: a shallow embedding of the graph builder
(`build_metro_graph`, with haversine travel times and a line-change penalty) and
of the priority-queue Dijkstra search (`dijkstra`), together with proofs of the
specified properties.

Modelling conventions:
* Python dicts become insertion-ordered association lists (`List (String × β)`);
  `d[k] = v` keeps the position of an existing key and appends a fresh one, as
  CPython dicts do.
* JSON numbers are exact rationals; the real-valued haversine arithmetic is
  modelled over `ℝ` with `Real.sin`, `Real.cos`, `Real.sqrt` and `atan2` given
  by `Complex.arg`.
* The `while` loops of `dijkstra` (which need not terminate on graphs with
  negative weights) are modelled with an explicit fuel parameter; `none` means
  the fuel ran out, `some r` means the Python function returns `r`.
* The `heapq` priority queue is modelled as a list from which `popMin` removes
  a least element in the lexicographic `(distance, node)` order — exactly the
  value `heapq.heappop` returns on tuples.
-/

/-- A JSON-style value sitting in a station-record field. `jnum q` stands for
any value Python `float()` converts to the number `q` (numbers and numeric
strings); `jnull` is JSON `null` (Python `None`); `jother` stands for a present
value that `float()` rejects (non-numeric string, list, object, ...). -/
inductive JValue where
  | jnull : JValue
  | jnum : ℚ → JValue
  | jother : String → JValue
deriving DecidableEq

/-- The Python exceptions `float(...)` can raise. -/
inductive PyError where
  | typeError : PyError
  | valueError : PyError
deriving DecidableEq

/-- Python `float(v)`: numbers (and numeric strings) convert; `float(None)`
raises `TypeError`; other non-convertible values raise `ValueError`. -/
def pyFloat : JValue → Except PyError ℚ
  | JValue.jnull => Except.error PyError.typeError
  | JValue.jnum q => Except.ok q
  | JValue.jother _ => Except.error PyError.valueError

/-- One input station record, after the loader: optional `latitude` and
`longitude` fields (absent field = `none`, present field = `some v` for a raw
`JValue`), and the `lines` and `relations` lists as returned by
`data.get('lines', [])` and `data.get('relations', [])`. -/
structure StationRecord where
  latitude : Option JValue
  longitude : Option JValue
  lines : List String
  relations : List String
deriving DecidableEq

/-- The derived per-station entry built on lines 43–47 of the source:
coordinates parsed by `float` when the field is present (else `None`), and the
`lines` value `data.get('lines', [])` — the list itself. -/
structure StationDetail where
  latitude : Option ℚ
  longitude : Option ℚ
  lines : List String
deriving DecidableEq

/-- Dict lookup `d[k]` (as an `Option`; the source only performs it on present
keys). -/
def dictGet {β : Type} (d : List (String × β)) (k : String) : Option β :=
  (d.find? (fun p => p.1 == k)).map (fun p => p.2)

/-- Dict lookup with a default value. -/
def dictGetD {β : Type} (d : List (String × β)) (k : String) (v₀ : β) : β :=
  (dictGet d k).getD v₀

/-- Dict assignment `d[k] = v`: overwrite in place when the key exists, append
otherwise (CPython dict insertion order). -/
def dictSet {β : Type} : List (String × β) → String → β → List (String × β)
  | [], k, v => [(k, v)]
  | p :: rest, k, v => if p.1 == k then (k, v) :: rest else p :: dictSet rest k v

/-- The key list of a dict, in insertion order. -/
def keys {β : Type} (d : List (String × β)) : List String := d.map Prod.fst

/-- A weighted adjacency graph: station name ↦ (neighbor name ↦ edge weight). -/
abbrev Graph (α : Type) : Type := List (String × List (String × α))

/-- Earth's radius in kilometers (line 8 of the source). -/
noncomputable def EARTH_RADIUS_KM : ℝ := 6371

/-- Python `math.radians`. -/
noncomputable def radians (x : ℝ) : ℝ := x * (Real.pi / 180)

/-- Python `math.atan2 y x`, i.e. the argument of the complex number
`x + y*i`, valued in `(-π, π]` with `atan2 0 0 = 0` — exactly `Complex.arg`. -/
noncomputable def atan2 (y x : ℝ) : ℝ := Complex.arg (Complex.mk x y)

/-- `haversine_distance` from lines 10–28 of the source: great-circle distance
in kilometers between two points given in degrees. -/
noncomputable def haversine_distance (lat1 lon1 lat2 lon2 : ℝ) : ℝ :=
  let lat1_rad := radians lat1
  let lon1_rad := radians lon1
  let lat2_rad := radians lat2
  let lon2_rad := radians lon2
  let dlat := lat2_rad - lat1_rad
  let dlon := lon2_rad - lon1_rad
  let a := Real.sin (dlat / 2) ^ 2 +
    Real.cos lat1_rad * Real.cos lat2_rad * Real.sin (dlon / 2) ^ 2
  let c := 2 * atan2 (Real.sqrt a) (Real.sqrt (1 - a))
  EARTH_RADIUS_KM * c

/-- The edge weight computed on lines 65–75 of the source: travel time in
minutes for the haversine distance at `train_speed_kmph`, plus the line-change
penalty exactly when the two stations' line sets do not intersect. -/
noncomputable def edgeTime (train_speed_kmph line_change_penalty_minutes : ℝ)
    (lat1 lon1 lat2 lon2 : ℚ) (lines1 lines2 : List String) : ℝ :=
  let distance_km := haversine_distance (lat1 : ℝ) (lon1 : ℝ) (lat2 : ℝ) (lon2 : ℝ)
  let travel_time_minutes := distance_km / train_speed_kmph * 60
  if lines1.toFinset ∩ lines2.toFinset = ∅ then
    travel_time_minutes + line_change_penalty_minutes
  else travel_time_minutes

/-- The pair of assignments `graph[a][b] = t` (lines 78–79 each do one). -/
def setEdge {α : Type} (g : Graph α) (a b : String) (t : α) : Graph α :=
  dictSet g a (dictSet (dictGetD g a []) b t)

/-- The body of the relations loop, lines 54–79 of the source: skip unknown
targets and incomplete coordinates, else record the weight in both
directions. -/
noncomputable def relationStep (stationKeys : List String)
    (det : List (String × StationDetail)) (sp pen : ℝ) (a : String)
    (g : Graph ℝ) (b : String) : Graph ℝ :=
  if stationKeys.contains b then
    match dictGet det a, dictGet det b with
    | some da, some db =>
      match da.latitude, da.longitude, db.latitude, db.longitude with
      | some lat1, some lon1, some lat2, some lon2 =>
        let t := edgeTime sp pen lat1 lon1 lat2 lon2 da.lines db.lines
        setEdge (setEdge g a b t) b a t
      | _, _, _, _ => g
    | _, _ => g
  else g

/-- One iteration of the edge-adding loop, lines 50–79: stations with a missing
coordinate contribute no outgoing edges (line 51), others process each
relation. -/
noncomputable def addEdgesFor (stationKeys : List String)
    (det : List (String × StationDetail)) (sp pen : ℝ)
    (g : Graph ℝ) (entry : String × StationRecord) : Graph ℝ :=
  match dictGet det entry.1 with
  | some da =>
    if da.latitude = none ∨ da.longitude = none then g
    else entry.2.relations.foldl (relationStep stationKeys det sp pen entry.1) g
  | none => g

/-- Parsing of one optional coordinate field, line 44/45 of the source:
`float(data['latitude']) if 'latitude' in data else None`. An absent field is
`None`; a present field goes through `float`, which may raise. -/
def parseCoord : Option JValue → Except PyError (Option ℚ)
  | none => Except.ok none
  | some v =>
    match pyFloat v with
    | Except.error err => Except.error err
    | Except.ok q => Except.ok (some q)

/-- One iteration of the node-adding loop, lines 41–47: an empty neighbor map
and a `StationDetail` for the station; any `float` failure propagates. -/
def addStation (acc : Graph ℝ × List (String × StationDetail))
    (e : String × StationRecord) :
    Except PyError (Graph ℝ × List (String × StationDetail)) :=
  match parseCoord e.2.latitude with
  | Except.error err => Except.error err
  | Except.ok lat =>
    match parseCoord e.2.longitude with
    | Except.error err => Except.error err
    | Except.ok lon =>
      Except.ok (dictSet acc.1 e.1 [], dictSet acc.2 e.1 ⟨lat, lon, e.2.lines⟩)

/-- The node-adding loop, lines 41–47 of the source. -/
def addStations : List (String × StationRecord) →
    Graph ℝ × List (String × StationDetail) →
    Except PyError (Graph ℝ × List (String × StationDetail))
  | [], acc => Except.ok acc
  | e :: rest, acc =>
    match addStation acc e with
    | Except.error err => Except.error err
    | Except.ok acc' => addStations rest acc'

/-- `build_metro_graph` from lines 30–81 of the source: the node pass followed
by the edge pass. -/
noncomputable def build_metro_graph (stations_data : List (String × StationRecord))
    (train_speed_kmph : ℝ := 40) (line_change_penalty_minutes : ℝ := 4) :
    Except PyError (Graph ℝ × List (String × StationDetail)) :=
  match addStations stations_data ([], []) with
  | Except.error err => Except.error err
  | Except.ok (g, det) =>
    Except.ok
      (stations_data.foldl
        (addEdgesFor (stations_data.map Prod.fst) det
          train_speed_kmph line_change_penalty_minutes) g,
        det)

/-- The graph component of a successful build (empty graph on failure); a
convenient handle for instantiating theorems at concrete inputs. -/
noncomputable def buildGraph (stations_data : List (String × StationRecord))
    (sp pen : ℝ) : Graph ℝ :=
  match build_metro_graph stations_data sp pen with
  | Except.ok (g, _) => g
  | Except.error _ => []

/-- The station-detail component of a successful build (empty on failure). -/
noncomputable def buildDetails (stations_data : List (String × StationRecord))
    (sp pen : ℝ) : List (String × StationDetail) :=
  match build_metro_graph stations_data sp pen with
  | Except.ok (_, det) => det
  | Except.error _ => []

/-- The neighbor map `graph[u]` (`{}` when `u` is not a key; the source only
looks up present keys). -/
def neighborsOf {α : Type} (g : Graph α) (u : String) : List (String × α) :=
  dictGetD g u []

/-- The weight of the edge `u → v`, when present. -/
def edgeW {α : Type} (g : Graph α) (u v : String) : Option α :=
  dictGet (neighborsOf g u) v

/-- Lexicographic comparison of `(distance, node)` pairs — the order Python
uses on the tuples stored in the heap. -/
def lePair {α : Type} [LinearOrder α] (x y : α × String) : Prop :=
  x.1 < y.1 ∨ (x.1 = y.1 ∧ x.2 ≤ y.2)

instance {α : Type} [LinearOrder α] (x y : α × String) : Decidable (lePair x y) := by
  unfold lePair
  infer_instance

/-- `heapq.heappop`: remove and return a least element in the lexicographic
`(distance, node)` order (the leftmost one among equals). -/
def popMin {α : Type} [LinearOrder α] :
    List (α × String) → Option ((α × String) × List (α × String))
  | [] => none
  | x :: xs =>
    match popMin xs with
    | none => some (x, [])
    | some (m, rest) => if lePair x m then some (x, xs) else some (m, x :: rest)

/-- The neighbor loop of `dijkstra`, lines 121–130 of the source: skip disabled
neighbors, and on a strict improvement update the distance, record the
predecessor and push the new entry. -/
def relaxNeighbors {α : Type} [LinearOrderedAddCommMonoid α] (disabled : List String)
    (u : String) (du : α) :
    List (String × α) → (String → WithTop α) → (String → Option String) →
    List (α × String) →
    ((String → WithTop α) × (String → Option String) × List (α × String))
  | [], dist, prev, pq => (dist, prev, pq)
  | vw :: rest, dist, prev, pq =>
    if vw.1 ∈ disabled then relaxNeighbors disabled u du rest dist prev pq
    else
      if ((du + vw.2 : α) : WithTop α) < dist vw.1 then
        relaxNeighbors disabled u du rest
          (fun x => if x = vw.1 then ((du + vw.2 : α) : WithTop α) else dist x)
          (fun x => if x = vw.1 then some u else prev x)
          (pq ++ [(du + vw.2, vw.1)])
      else relaxNeighbors disabled u du rest dist prev pq

/-- The path-reconstruction loop, lines 115–118 of the source: follow
predecessor links, prepending each node, until `None` is reached. The fuel
guards against a cyclic predecessor map; `none` means non-termination. -/
def reconstructPath (prev : String → Option String) :
    Nat → Option String → List String → Option (List String)
  | 0, _, _ => none
  | _ + 1, none, path => some path
  | f + 1, some c, path => reconstructPath prev f (prev c) (c :: path)

/-- The main `while priority_queue` loop, lines 103–132 of the source. The
result is `some (some (time, path))` for a found route, `some none` for the
`(None, None)` no-path return, and `none` when the fuel ran out. -/
def dijkstraLoop {α : Type} [LinearOrderedAddCommMonoid α] (g : Graph α)
    (end_node : String) (disabled : List String) :
    Nat → (String → WithTop α) → (String → Option String) → List (α × String) →
    Option (Option (WithTop α × List String))
  | 0, _, _, _ => none
  | f + 1, dist, prev, pq =>
    match popMin pq with
    | none => some none
    | some (du, rest) =>
      if du.2 ∈ disabled then dijkstraLoop g end_node disabled f dist prev rest
      else if dist du.2 < (du.1 : WithTop α) then
        dijkstraLoop g end_node disabled f dist prev rest
      else if du.2 = end_node then
        match reconstructPath prev f (some du.2) [] with
        | none => none
        | some path => some (some (dist end_node, path))
      else
        match relaxNeighbors disabled du.2 du.1 (neighborsOf g du.2) dist prev rest with
        | (dist', prev', pq') => dijkstraLoop g end_node disabled f dist' prev' pq'

/-- `dijkstra` from lines 85–132 of the source, with explicit fuel: tentative
distances start at infinity except `start_node ↦ 0`, the predecessor map at
`None`, and the frontier holds `(0, start_node)`. -/
def dijkstra {α : Type} [LinearOrderedAddCommMonoid α] (g : Graph α)
    (start_node end_node : String) (disabled_stations : List String) (fuel : Nat) :
    Option (Option (WithTop α × List String)) :=
  dijkstraLoop g end_node disabled_stations fuel
    (fun node => if node = start_node then ((0 : α) : WithTop α) else ⊤)
    (fun _ => none)
    [((0 : α), start_node)]

def gScenario : Graph ℕ :=
  [("X", [("Y", 5), ("Z", 10)]), ("Y", [("X", 5), ("Z", 3)]),
    ("Z", [("Y", 3), ("X", 10)])]

/-- A start-to-end path in the subgraph obtained by removing the disabled
nodes and their incident edges: the node list starts at the first index,
each consecutive pair is an edge of `g`, no node is disabled, and the cost is
the sum of the edge weights. -/
inductive IsPath {α : Type} [LinearOrderedAddCommMonoid α] (g : Graph α)
    (disabled : List String) : String → String → List String → α → Prop
  | single (u : String) (hu : u ∉ disabled) : IsPath g disabled u u [u] 0
  | cons (u v e : String) (w c : α) (p : List String) (hu : u ∉ disabled)
      (hw : edgeW g u v = some w) (hp : IsPath g disabled v e p c) :
      IsPath g disabled u e (u :: p) (w + c)

/-- The total edge weight along a node list (`none` when some consecutive pair
is not an edge, or the list is empty). -/
def pathSum {α : Type} [LinearOrderedAddCommMonoid α] (g : Graph α) :
    List String → Option α
  | [] => none
  | [_] => some 0
  | u :: v :: rest =>
    match edgeW g u v, pathSum g (v :: rest) with
    | some w, some c => some (w + c)
    | _, _ => none

/-- Well-formedness enjoyed by every graph `build_metro_graph` produces (and
by Python dicts generally): outer and inner key lists are duplicate-free and
every neighbor is itself a key of the graph. -/
def GraphWF {α : Type} (g : Graph α) : Prop :=
  (keys g).Nodup ∧ ∀ p ∈ g, (keys p.2).Nodup ∧ ∀ q ∈ p.2, q.1 ∈ keys g

/-- All edge weights of the graph are nonnegative. -/
def NonnegWeights {α : Type} [LinearOrderedAddCommMonoid α] (g : Graph α) : Prop :=
  ∀ p ∈ g, ∀ q ∈ p.2, (0 : α) ≤ q.2

/-- Every recorded edge carries the weight `build_metro_graph` computes from
the two stations' details, and its reverse edge is present with the same
weight. -/
def GoodEdges (det : List (String × StationDetail)) (sp pen : ℝ) (g : Graph ℝ) : Prop :=
  ∀ a b w, edgeW g a b = some w →
    ∃ da db la1 lo1 la2 lo2,
      dictGet det a = some da ∧ dictGet det b = some db ∧
      da.latitude = some la1 ∧ da.longitude = some lo1 ∧
      db.latitude = some la2 ∧ db.longitude = some lo2 ∧
      w = edgeTime sp pen la1 lo1 la2 lo2 da.lines db.lines ∧
      edgeW g b a = some w

/-- Fuel still consumable by the search: pending frontier entries plus, for
each unprocessed station, its degree (possible future pushes) and one pop. -/
def remBudget {α : Type} (g : Graph α) (S : List String) (pq : List (α × String)) : Nat :=
  pq.length + ((g.filter (fun p => !(S.contains p.1))).map (fun p => p.2.length + 1)).sum

/-- Fuel sufficient for `dijkstra` to terminate on a well-formed graph with
nonnegative weights. -/
def fuelBound {α : Type} (g : Graph α) : Nat :=
  remBudget g [] [] + (keys g).length + 5

/-- Core loop invariant of the search, for a start node `s ∉ disabled`. `S`
lists the processed (settled) nodes, newest first: tentative distances of
frontier entries are upper bounds, every unsettled finite-distance node has its
entry in the frontier, settled distances are minimal path costs, disabled
nodes keep infinite distance, and every finite-distance node carries a
reconstructible duplicate-free predecessor chain of exactly its cost. -/
structure DCore {α : Type} [LinearOrderedAddCommMonoid α] (g : Graph α)
    (disabled : List String) (s : String) (S : List String)
    (dist : String → WithTop α) (prev : String → Option String)
    (pq : List (α × String)) : Prop where
  dist_start : dist s = ((0 : α) : WithTop α)
  pq_ge : ∀ p ∈ pq, dist p.2 ≤ ((p.1 : α) : WithTop α)
  pq_keys : ∀ p ∈ pq, p.2 ∈ keys g
  frontier : ∀ (v : String) (t : α), v ∉ S → dist v = (t : WithTop α) → (t, v) ∈ pq
  processed_fin : ∀ u ∈ S, dist u ≠ ⊤
  processed_min : ∀ (u : String) (t : α), u ∈ S → dist u = (t : WithTop α) →
    ∀ p c, IsPath g disabled s u p c → t ≤ c
  disabled_top : ∀ v ∈ disabled, dist v = ⊤
  chain : ∀ (v : String) (t : α), dist v = (t : WithTop α) →
    ∃ p, IsPath g disabled s v p t ∧ p.Nodup ∧ (∀ x ∈ p.dropLast, x ∈ S) ∧
      ∀ f, p.length + 1 ≤ f → reconstructPath prev f (some v) [] = some p
  s_nodup : S.Nodup
  s_keys : ∀ u ∈ S, u ∈ keys g

/-- The settled nodes are fully relaxed: each enabled neighbor's tentative
distance is at most the settled distance plus the edge weight. -/
def Relaxed {α : Type} [LinearOrderedAddCommMonoid α] (g : Graph α)
    (disabled : List String) (S : List String) (dist : String → WithTop α) : Prop :=
  ∀ (u : String) (t : α), u ∈ S → dist u = (t : WithTop α) →
    ∀ vw ∈ neighborsOf g u, vw.1 ∉ disabled →
      dist vw.1 ≤ ((t + vw.2 : α) : WithTop α)

/-- Input with a present-but-null latitude: `float(None)` raises. -/
def stationsNull : List (String × StationRecord) :=
  [("A", ⟨some JValue.jnull, some (JValue.jnum 51), [], []⟩)]

/-- Input whose `lines` list holds a duplicate entry. -/
def stationsDup : List (String × StationRecord) :=
  [("A", ⟨none, none, ["1", "1"], []⟩)]

/-- Two stations, adjacent in both records, sharing line `1`. -/
def stationsPair : List (String × StationRecord) :=
  [("A", ⟨some (JValue.jnum 35), some (JValue.jnum 51), ["1"], ["B"]⟩),
    ("B", ⟨some (JValue.jnum 35), some (JValue.jnum (515 / 10)), ["1", "2"], ["A"]⟩)]

/-- Three stations: `B` lacks a latitude (isolated), `A` and `C` are adjacent
with no shared line. -/
def stationsIso : List (String × StationRecord) :=
  [("A", ⟨some (JValue.jnum 35), some (JValue.jnum 51), ["1"], ["B", "C"]⟩),
    ("B", ⟨none, some (JValue.jnum 51), ["1"], ["A"]⟩),
    ("C", ⟨some (JValue.jnum 36), some (JValue.jnum 51), ["2"], ["A"]⟩)]

/-- Invariant of the edge-adding pass over the station keys `K`: every edge
matches the weight computed from the details and is symmetric, the key list is
unchanged, and inner key lists stay duplicate-free. -/
def Pass2Inv (det : List (String × StationDetail)) (sp pen : ℝ) (K : List String)
    (g : Graph ℝ) : Prop :=
  GoodEdges det sp pen g ∧ keys g = K ∧ ∀ p ∈ g, (keys p.2).Nodup

/-! ### Theorems -/

example : parseCoord none = Except.ok none := rfl

example : parseCoord (some JValue.jnull) = Except.error PyError.typeError := rfl

example : parseCoord (some (JValue.jnum 35)) = Except.ok (some 35) := rfl

example :
    build_metro_graph [("A", ⟨some JValue.jnull, some (JValue.jnum 51), [], []⟩)] 40 4 =
      Except.error PyError.typeError := rfl

example :
    build_metro_graph [("A", ⟨none, none, ["1", "1"], []⟩)] 40 4 =
      Except.ok ([("A", [])], [("A", ⟨none, none, ["1", "1"]⟩)]) := rfl

example : dijkstra gScenario "X" "Z" [] 20 =
    some (some (((8 : ℕ) : WithTop ℕ), ["X", "Y", "Z"])) := by decide

example : dijkstra gScenario "X" "Z" ["Y"] 20 =
    some (some (((10 : ℕ) : WithTop ℕ), ["X", "Z"])) := by decide

example : dijkstra gScenario "X" "Z" ["Z"] 20 = some none := by decide

example : dijkstra gScenario "X" "X" [] 20 =
    some (some (((0 : ℕ) : WithTop ℕ), ["X"])) := by decide

example : dijkstra gScenario "X" "Z" ["X"] 20 = some none := by decide

example : ∀ a b : String, a ≤ b ∨ b ≤ a := fun a b => le_total a b

theorem dictGet_cons {β : Type} (p : String × β) (d : List (String × β)) (k : String) :
    dictGet (p :: d) k = if p.1 = k then some p.2 else dictGet d k := by
  by_cases h : p.1 = k
  · simp [dictGet, List.find?_cons, h]
  · simp [dictGet, List.find?_cons, h]

theorem dictGet_dictSet_self {β : Type} (d : List (String × β)) (k : String) (v : β) :
    dictGet (dictSet d k v) k = some v := by
  induction d with
  | nil => simp [dictSet, dictGet_cons]
  | cons p rest ih =>
    by_cases h : p.1 = k
    · simp [dictSet, h, dictGet_cons]
    · simp [dictSet, h, dictGet_cons, ih]

theorem dictGet_dictSet_ne {β : Type} (d : List (String × β)) (k k' : String) (v : β)
    (h : k' ≠ k) : dictGet (dictSet d k v) k' = dictGet d k' := by
  induction d with
  | nil => simp [dictSet, dictGet_cons, dictGet, Ne.symm h]
  | cons p rest ih =>
    by_cases hp : p.1 = k
    · simp [dictSet, hp, dictGet_cons, Ne.symm h, hp ▸ (Ne.symm h)]
    · simp [dictSet, hp, dictGet_cons, ih]

theorem keys_cons {β : Type} (p : String × β) (d : List (String × β)) :
    keys (p :: d) = p.1 :: keys d := rfl

theorem mem_keys_iff_dictGet {β : Type} (d : List (String × β)) (k : String) :
    k ∈ keys d ↔ (dictGet d k).isSome := by
  induction d with
  | nil => simp [keys, dictGet]
  | cons p rest ih =>
    rw [keys_cons, dictGet_cons]
    by_cases h : p.1 = k
    · simp [h]
    · rw [if_neg h]
      simp only [List.mem_cons]
      constructor
      · rintro (rfl | hk)
        · exact absurd rfl h
        · exact ih.mp hk
      · intro hs
        exact Or.inr (ih.mpr hs)

theorem keys_dictSet_mem {β : Type} (d : List (String × β)) (k : String) (v : β)
    (h : k ∈ keys d) : keys (dictSet d k v) = keys d := by
  induction d with
  | nil => simp [keys] at h
  | cons p rest ih =>
    by_cases hp : p.1 = k
    · simp [dictSet, hp, keys]
    · rw [keys_cons] at h
      rcases List.mem_cons.mp h with h' | h'
      · exact absurd h'.symm hp
      · have hset : dictSet (p :: rest) k v = p :: dictSet rest k v := by
          simp [dictSet, hp]
        rw [hset, keys_cons, ih h', keys_cons]

theorem keys_dictSet_new {β : Type} (d : List (String × β)) (k : String) (v : β)
    (h : k ∉ keys d) : keys (dictSet d k v) = keys d ++ [k] := by
  induction d with
  | nil => simp [dictSet, keys]
  | cons p rest ih =>
    rw [keys_cons] at h
    have h1 : p.1 ≠ k := fun e => h (List.mem_cons.mpr (Or.inl e.symm))
    have h2 : k ∉ keys rest := fun hk => h (List.mem_cons.mpr (Or.inr hk))
    have hset : dictSet (p :: rest) k v = p :: dictSet rest k v := by
      simp [dictSet, h1]
    rw [hset, keys_cons, ih h2, keys_cons]
    rfl

theorem mem_of_dictGet {β : Type} (d : List (String × β)) (k : String) (v : β)
    (h : dictGet d k = some v) : (k, v) ∈ d := by
  induction d with
  | nil => simp [dictGet] at h
  | cons p rest ih =>
    by_cases hp : p.1 = k
    · rw [dictGet_cons, if_pos hp] at h
      have hv := Option.some.inj h
      have : (k, v) = p := by rw [← hp, ← hv]
      exact List.mem_cons.mpr (Or.inl this)
    · rw [dictGet_cons, if_neg hp] at h
      exact List.mem_cons_of_mem _ (ih h)

theorem dictGet_of_mem {β : Type} (d : List (String × β)) (k : String) (v : β)
    (hd : (keys d).Nodup) (h : (k, v) ∈ d) : dictGet d k = some v := by
  induction d with
  | nil => simp at h
  | cons p rest ih =>
    rw [keys_cons] at hd
    rcases List.mem_cons.mp h with h' | h'
    · rw [← h', dictGet_cons, if_pos rfl]
    · have hres : dictGet rest k = some v := ih (List.nodup_cons.mp hd).2 h'
      have hp : p.1 ≠ k := by
        intro e
        have hk : k ∈ keys rest := by
          rw [mem_keys_iff_dictGet, hres]
          rfl
        exact (List.nodup_cons.mp hd).1 (by rw [e]; exact hk)
      rw [dictGet_cons, if_neg hp]
      exact hres

theorem nodup_keys_dictSet {β : Type} (d : List (String × β)) (k : String) (v : β)
    (hd : (keys d).Nodup) : (keys (dictSet d k v)).Nodup := by
  by_cases h : k ∈ keys d
  · rwa [keys_dictSet_mem d k v h]
  · rw [keys_dictSet_new d k v h, List.nodup_append]
    refine ⟨hd, List.nodup_singleton _, ?_⟩
    intro x hx hx2
    rw [List.mem_singleton] at hx2
    exact h (by rw [← hx2]; exact hx)

theorem mem_dictSet_cases {β : Type} (d : List (String × β)) (k : String) (v : β)
    (p : String × β) (h : p ∈ dictSet d k v) : p = (k, v) ∨ p ∈ d := by
  induction d with
  | nil =>
    simp [dictSet] at h
    simp [h]
  | cons q rest ih =>
    by_cases hq : q.1 = k
    · simp only [dictSet, hq, beq_self_eq_true, if_true, List.mem_cons] at h
      rcases h with h | h
      · exact Or.inl h
      · exact Or.inr (List.mem_cons_of_mem _ h)
    · have hset : dictSet (q :: rest) k v = q :: dictSet rest k v := by
        simp [dictSet, hq]
      rw [hset] at h
      rcases List.mem_cons.mp h with h | h
      · exact Or.inr (List.mem_cons.mpr (Or.inl h))
      · rcases ih h with h2 | h2
        · exact Or.inl h2
        · exact Or.inr (List.mem_cons_of_mem _ h2)

theorem lePair_refl {α : Type} [LinearOrder α] (x : α × String) : lePair x x :=
  Or.inr ⟨rfl, le_refl _⟩

theorem lePair_trans {α : Type} [LinearOrder α] {x y z : α × String}
    (h1 : lePair x y) (h2 : lePair y z) : lePair x z := by
  rcases h1 with h1 | ⟨e1, l1⟩
  · rcases h2 with h2 | ⟨e2, l2⟩
    · exact Or.inl (lt_trans h1 h2)
    · exact Or.inl (lt_of_lt_of_le h1 (le_of_eq e2))
  · rcases h2 with h2 | ⟨e2, l2⟩
    · exact Or.inl (lt_of_le_of_lt (le_of_eq e1) h2)
    · exact Or.inr ⟨e1.trans e2, le_trans l1 l2⟩

theorem lePair_total {α : Type} [LinearOrder α] (x y : α × String) :
    lePair x y ∨ lePair y x := by
  rcases lt_trichotomy x.1 y.1 with h | h | h
  · exact Or.inl (Or.inl h)
  · rcases le_total x.2 y.2 with h2 | h2
    · exact Or.inl (Or.inr ⟨h, h2⟩)
    · exact Or.inr (Or.inr ⟨h.symm, h2⟩)
  · exact Or.inr (Or.inl h)

theorem lePair_antisymm {α : Type} [LinearOrder α] {x y : α × String}
    (h1 : lePair x y) (h2 : lePair y x) : x = y := by
  rcases h1 with h1 | ⟨e1, l1⟩
  · rcases h2 with h2 | ⟨e2, l2⟩
    · exact absurd h2 (lt_asymm h1)
    · exact absurd h1 (by rw [e2]; exact lt_irrefl _)
  · rcases h2 with h2 | ⟨e2, l2⟩
    · exact absurd h2 (by rw [e1]; exact lt_irrefl _)
    · have : x.2 = y.2 := le_antisymm l1 l2
      exact Prod.ext e1 this

theorem popMin_eq_none_iff {α : Type} [LinearOrder α] (l : List (α × String)) :
    popMin l = none ↔ l = [] := by
  cases l with
  | nil => simp [popMin]
  | cons x xs =>
    simp only [popMin]
    cases h : popMin xs with
    | none => simp
    | some mr =>
      obtain ⟨m, rest⟩ := mr
      by_cases hle : lePair x m <;> simp [hle]

theorem popMin_perm {α : Type} [LinearOrder α] (l : List (α × String))
    (x : α × String) (rest : List (α × String)) (h : popMin l = some (x, rest)) :
    l.Perm (x :: rest) := by
  induction l generalizing x rest with
  | nil => simp [popMin] at h
  | cons a xs ih =>
    simp only [popMin] at h
    cases hxs : popMin xs with
    | none =>
      rw [hxs] at h
      have hnil : xs = [] := (popMin_eq_none_iff xs).mp hxs
      simp at h
      rw [hnil, ← h.1, ← h.2]
    | some mr =>
      obtain ⟨m, r⟩ := mr
      rw [hxs] at h
      by_cases hle : lePair a m
      · simp [hle] at h
        rw [← h.1, ← h.2]
      · simp [hle] at h
        have hperm : xs.Perm (m :: r) := ih m r hxs
        rw [← h.1, ← h.2]
        exact (hperm.cons a).trans (List.Perm.swap m a r)

theorem popMin_le {α : Type} [LinearOrder α] (l : List (α × String))
    (x : α × String) (rest : List (α × String)) (h : popMin l = some (x, rest)) :
    ∀ y ∈ l, lePair x y := by
  induction l generalizing x rest with
  | nil => simp [popMin] at h
  | cons a xs ih =>
    simp only [popMin] at h
    cases hxs : popMin xs with
    | none =>
      rw [hxs] at h
      have hnil : xs = [] := (popMin_eq_none_iff xs).mp hxs
      simp at h
      intro y hy
      rw [hnil, List.mem_singleton] at hy
      rw [← h.1, hy]
      exact lePair_refl a
    | some mr =>
      obtain ⟨m, r⟩ := mr
      rw [hxs] at h
      by_cases hle : lePair a m
      · simp [hle] at h
        intro y hy
        rw [← h.1]
        rcases List.mem_cons.mp hy with hy | hy
        · rw [hy]
          exact lePair_refl a
        · exact lePair_trans hle (ih m r hxs y hy)
      · simp [hle] at h
        have hma : lePair m a := (lePair_total a m).resolve_left hle
        intro y hy
        rw [← h.1]
        rcases List.mem_cons.mp hy with hy | hy
        · rw [hy]
          exact hma
        · exact ih m r hxs y hy

theorem popMin_mem {α : Type} [LinearOrder α] (l : List (α × String))
    (x : α × String) (rest : List (α × String)) (h : popMin l = some (x, rest)) :
    x ∈ l :=
  (popMin_perm l x rest h).symm.subset (List.mem_cons_self x rest)

/-- C5: for every graph and every query whose start station is disabled,
`dijkstra` returns the no-path result `(None, None)`: the start entry, popped
with distance 0, is discarded and the loop ends with the frontier empty; and
whenever the frontier empties the search returns the dedicated empty result
rather than throwing. -/
theorem dijkstra_disabled_start {α : Type} [LinearOrderedAddCommMonoid α]
    (g : Graph α) (s e : String) (D : List String) :
    (s ∈ D → ∀ fuel, 2 ≤ fuel → dijkstra g s e D fuel = some none) ∧
    (∀ (fuel : Nat) (dist : String → WithTop α) (prev : String → Option String),
      dijkstraLoop g e D (fuel + 1) dist prev [] = some none) := by
  constructor
  · intro hs fuel hf
    obtain ⟨f, rfl⟩ : ∃ f, fuel = f + 2 := ⟨fuel - 2, by omega⟩
    show dijkstraLoop g e D (f + 1 + 1) _ _ _ = some none
    simp [dijkstraLoop, popMin, hs]
  · intro fuel dist prev
    simp [dijkstraLoop, popMin]

/-- Witness for C5 at a concrete query with a disabled start. -/
theorem dijkstra_disabled_start_witness :
    ("A" ∈ ["A"]) ∧ 2 ≤ 2 ∧ dijkstra ([] : Graph ℕ) "A" "B" ["A"] 2 = some none :=
  ⟨by decide, by decide,
    (dijkstra_disabled_start ([] : Graph ℕ) "A" "B" ["A"]).1 (by decide) 2 (by decide)⟩

/-- C10: `dijkstra` is deterministic — equal inputs give equal results — and
frontier ties are broken by the ordering of `(distance, node)` tuples: the
popped entry is minimal in distance first and node identifier second. -/
theorem dijkstra_deterministic {α : Type} [LinearOrderedAddCommMonoid α] :
    (∀ (g : Graph α) (s e : String) (D : List String) (fuel : Nat),
      dijkstra g s e D fuel = dijkstra g s e D fuel) ∧
    (∀ (pq : List (α × String)) (x : α × String) (rest : List (α × String)),
      popMin pq = some (x, rest) →
        x ∈ pq ∧ ∀ y ∈ pq, x.1 < y.1 ∨ (x.1 = y.1 ∧ x.2 ≤ y.2)) := by
  refine ⟨fun g s e D fuel => rfl, fun pq x rest h => ⟨popMin_mem pq x rest h, ?_⟩⟩
  intro y hy
  exact popMin_le pq x rest h y hy

/-- Witness for C10: with two frontier entries at equal distance, the pop is
resolved by the node identifiers' order. -/
theorem dijkstra_deterministic_witness :
    popMin [((3 : ℕ), "b"), (3, "a")] = some ((3, "a"), [(3, "b")]) ∧
      ((3, "a") ∈ [((3 : ℕ), "b"), (3, "a")] ∧
        ∀ y ∈ [((3 : ℕ), "b"), (3, "a")],
          (3 : ℕ) < y.1 ∨ ((3 : ℕ) = y.1 ∧ "a" ≤ y.2)) := by
  have hba : ¬ lePair ((3 : ℕ), "b") ((3 : ℕ), "a") := by
    intro h
    rcases h with h | ⟨-, h⟩
    · exact absurd h (lt_irrefl _)
    · rw [String.le_iff_toList_le] at h
      exact absurd h (by decide)
  have hpop : popMin [((3 : ℕ), "b"), (3, "a")] = some ((3, "a"), [(3, "b")]) := by
    simp [popMin, hba]
  exact ⟨hpop, (@dijkstra_deterministic ℕ _).2 _ _ _ hpop⟩

theorem mem_keys_dictSet {β : Type} (d : List (String × β)) (k : String) (v : β)
    (x : String) : x ∈ keys (dictSet d k v) ↔ x ∈ keys d ∨ x = k := by
  by_cases h : k ∈ keys d
  · rw [keys_dictSet_mem d k v h]
    constructor
    · exact fun hx => Or.inl hx
    · rintro (hx | rfl)
      · exact hx
      · exact h
  · rw [keys_dictSet_new d k v h]
    simp

theorem addStation_ok (acc : Graph ℝ × List (String × StationDetail))
    (e : String × StationRecord) (acc2 : Graph ℝ × List (String × StationDetail))
    (h : addStation acc e = Except.ok acc2) :
    ∃ lat lon, parseCoord e.2.latitude = Except.ok lat ∧
      parseCoord e.2.longitude = Except.ok lon ∧
      acc2 = (dictSet acc.1 e.1 [], dictSet acc.2 e.1 ⟨lat, lon, e.2.lines⟩) := by
  unfold addStation at h
  cases hlat : parseCoord e.2.latitude with
  | error err =>
    rw [hlat] at h
    simp at h
  | ok lat =>
    rw [hlat] at h
    cases hlon : parseCoord e.2.longitude with
    | error err =>
      rw [hlon] at h
      simp at h
    | ok lon =>
      rw [hlon] at h
      simp at h
      exact ⟨lat, lon, rfl, rfl, h.symm⟩

theorem addStations_untouched (l : List (String × StationRecord))
    (acc res : Graph ℝ × List (String × StationDetail)) (x : String)
    (h : addStations l acc = Except.ok res) (hx : x ∉ l.map Prod.fst) :
    dictGet res.1 x = dictGet acc.1 x ∧ dictGet res.2 x = dictGet acc.2 x := by
  induction l generalizing acc with
  | nil =>
    simp [addStations] at h
    rw [← h]
    exact ⟨rfl, rfl⟩
  | cons e rest ih =>
    rw [List.map_cons, List.mem_cons] at hx
    push_neg at hx
    unfold addStations at h
    cases ha : addStation acc e with
    | error err =>
      rw [ha] at h
      simp at h
    | ok acc2 =>
      rw [ha] at h
      simp at h
      obtain ⟨lat, lon, hlat, hlon, rfl⟩ := addStation_ok acc e acc2 ha
      have hr := ih _ h hx.2
      rw [hr.1, hr.2]
      exact ⟨dictGet_dictSet_ne _ _ _ _ hx.1, dictGet_dictSet_ne _ _ _ _ hx.1⟩

theorem addStations_detail (l : List (String × StationRecord))
    (acc res : Graph ℝ × List (String × StationDetail)) (x : String) (rx : StationRecord)
    (hnd : (l.map Prod.fst).Nodup)
    (h : addStations l acc = Except.ok res) (hmem : (x, rx) ∈ l) :
    ∃ lat lon, parseCoord rx.latitude = Except.ok lat ∧
      parseCoord rx.longitude = Except.ok lon ∧
      dictGet res.2 x = some ⟨lat, lon, rx.lines⟩ ∧ dictGet res.1 x = some [] := by
  induction l generalizing acc with
  | nil => simp at hmem
  | cons e rest ih =>
    rw [List.map_cons] at hnd
    unfold addStations at h
    cases ha : addStation acc e with
    | error err =>
      rw [ha] at h
      simp at h
    | ok acc2 =>
      rw [ha] at h
      simp at h
      obtain ⟨lat, lon, hlat, hlon, rfl⟩ := addStation_ok acc e acc2 ha
      rcases List.mem_cons.mp hmem with hm | hm
      · obtain ⟨e1, e2⟩ := e
        rw [Prod.mk.injEq] at hm
        obtain ⟨hx1, hx2⟩ := hm
        subst hx1
        subst hx2
        have hxr : x ∉ rest.map Prod.fst := (List.nodup_cons.mp hnd).1
        have hu := addStations_untouched rest _ res x h hxr
        refine ⟨lat, lon, hlat, hlon, ?_, ?_⟩
        · rw [hu.2]
          exact dictGet_dictSet_self _ _ _
        · rw [hu.1]
          exact dictGet_dictSet_self _ _ _
      · exact ih _ (List.nodup_cons.mp hnd).2 h hm

theorem addStations_error (l : List (String × StationRecord))
    (acc : Graph ℝ × List (String × StationDetail)) (x : String) (rx : StationRecord)
    (hmem : (x, rx) ∈ l)
    (hbad : (∃ v err, rx.latitude = some v ∧ pyFloat v = Except.error err) ∨
      (∃ v err, rx.longitude = some v ∧ pyFloat v = Except.error err)) :
    ∃ err2, addStations l acc = Except.error err2 := by
  induction l generalizing acc with
  | nil => simp at hmem
  | cons e rest ih =>
    rcases List.mem_cons.mp hmem with hm | hm
    · have hstep : ∃ err, addStation acc e = Except.error err := by
        unfold addStation
        rcases hbad with ⟨v, err, hv, hferr⟩ | ⟨v, err, hv, hferr⟩
        · have hv2 : e.2.latitude = some v := by
            rw [← hm]
            exact hv
          have hpc : parseCoord e.2.latitude = Except.error err := by
            rw [hv2]
            simp only [parseCoord]
            rw [hferr]
          rw [hpc]
          exact ⟨err, rfl⟩
        · cases hl : parseCoord e.2.latitude with
          | error err3 => exact ⟨err3, rfl⟩
          | ok lat =>
            have hv2 : e.2.longitude = some v := by
              rw [← hm]
              exact hv
            have hpc : parseCoord e.2.longitude = Except.error err := by
              rw [hv2]
              simp only [parseCoord]
              rw [hferr]
            rw [hpc]
            exact ⟨err, rfl⟩
      obtain ⟨err, he⟩ := hstep
      refine ⟨err, ?_⟩
      unfold addStations
      rw [he]
    · cases ha : addStation acc e with
      | error err =>
        refine ⟨err, ?_⟩
        unfold addStations
        rw [ha]
      | ok acc2 =>
        obtain ⟨err2, h2⟩ := ih acc2 hm
        refine ⟨err2, ?_⟩
        unfold addStations
        rw [ha]
        exact h2

theorem addStations_keys (l : List (String × StationRecord))
    (acc res : Graph ℝ × List (String × StationDetail))
    (h : addStations l acc = Except.ok res) (x : String) :
    (x ∈ keys res.1 ↔ x ∈ keys acc.1 ∨ x ∈ l.map Prod.fst) ∧
      (x ∈ keys res.2 ↔ x ∈ keys acc.2 ∨ x ∈ l.map Prod.fst) := by
  induction l generalizing acc with
  | nil =>
    simp [addStations] at h
    rw [← h]
    simp
  | cons e rest ih =>
    unfold addStations at h
    cases ha : addStation acc e with
    | error err =>
      rw [ha] at h
      simp at h
    | ok acc2 =>
      rw [ha] at h
      simp at h
      obtain ⟨lat, lon, hlat, hlon, rfl⟩ := addStation_ok acc e acc2 ha
      have hi := ih _ h
      constructor
      · rw [hi.1, mem_keys_dictSet]
        simp [or_assoc, or_comm, or_left_comm]
      · rw [hi.2, mem_keys_dictSet]
        simp [or_assoc, or_comm, or_left_comm]

theorem addStations_nodup (l : List (String × StationRecord))
    (acc res : Graph ℝ × List (String × StationDetail))
    (h : addStations l acc = Except.ok res)
    (h1 : (keys acc.1).Nodup) (h2 : (keys acc.2).Nodup) :
    (keys res.1).Nodup ∧ (keys res.2).Nodup := by
  induction l generalizing acc with
  | nil =>
    simp [addStations] at h
    rw [← h]
    exact ⟨h1, h2⟩
  | cons e rest ih =>
    unfold addStations at h
    cases ha : addStation acc e with
    | error err =>
      rw [ha] at h
      simp at h
    | ok acc2 =>
      rw [ha] at h
      simp at h
      obtain ⟨lat, lon, hlat, hlon, rfl⟩ := addStation_ok acc e acc2 ha
      exact ih _ h (nodup_keys_dictSet _ _ _ h1) (nodup_keys_dictSet _ _ _ h2)

theorem addStations_inner (l : List (String × StationRecord))
    (acc res : Graph ℝ × List (String × StationDetail))
    (h : addStations l acc = Except.ok res)
    (p : String × List (String × ℝ)) (hp : p ∈ res.1) : p ∈ acc.1 ∨ p.2 = [] := by
  induction l generalizing acc with
  | nil =>
    simp [addStations] at h
    rw [← h] at hp
    exact Or.inl hp
  | cons e rest ih =>
    unfold addStations at h
    cases ha : addStation acc e with
    | error err =>
      rw [ha] at h
      simp at h
    | ok acc2 =>
      rw [ha] at h
      simp at h
      obtain ⟨lat, lon, hlat, hlon, rfl⟩ := addStation_ok acc e acc2 ha
      rcases ih _ h with h2 | h2
      · rcases mem_dictSet_cases _ _ _ _ h2 with h3 | h3
        · rw [h3]
          exact Or.inr rfl
        · exact Or.inl h3
      · exact Or.inr h2

theorem build_ok_parts (l : List (String × StationRecord)) (sp pen : ℝ)
    (g : Graph ℝ) (det : List (String × StationDetail))
    (h : build_metro_graph l sp pen = Except.ok (g, det)) :
    ∃ g0, addStations l ([], []) = Except.ok (g0, det) ∧
      g = l.foldl (addEdgesFor (l.map Prod.fst) det sp pen) g0 := by
  unfold build_metro_graph at h
  cases ha : addStations l ([], []) with
  | error err =>
    rw [ha] at h
    simp at h
  | ok gd =>
    obtain ⟨g0, det0⟩ := gd
    rw [ha] at h
    simp at h
    refine ⟨g0, by rw [h.2], ?_⟩
    rw [← h.2]
    exact h.1.symm

/-- C4 counterexample: on a record whose latitude field is present but null,
the build fails with a `TypeError` instead of succeeding with a missing
coordinate as the claim states. -/
theorem build_null_coordinate_not_missing :
    build_metro_graph stationsNull 40 4 = Except.error PyError.typeError ∧
      ∀ (g : Graph ℝ) (det : List (String × StationDetail)),
        build_metro_graph stationsNull 40 4 ≠ Except.ok (g, det) := by
  refine ⟨rfl, ?_⟩
  intro g det h
  exact Except.noConfusion
    ((rfl : build_metro_graph stationsNull 40 4 = Except.error PyError.typeError).symm.trans h)

/-- C4 (amended): the build treats only genuinely absent latitude/longitude
fields as missing (null coordinate in the `StationDetail`); any present field
whose value `float` cannot convert — a null included — fails the whole build
with a propagated data error. -/
theorem build_coordinate_error_handling :
    (∀ (l : List (String × StationRecord)) (sp pen : ℝ) (g : Graph ℝ)
      (det : List (String × StationDetail)) (x : String) (rx : StationRecord),
      (l.map Prod.fst).Nodup → build_metro_graph l sp pen = Except.ok (g, det) →
      (x, rx) ∈ l →
      ∃ dx, dictGet det x = some dx ∧
        (rx.latitude = none → dx.latitude = none) ∧
        (∀ v, rx.latitude = some v → ∃ q, pyFloat v = Except.ok q ∧ dx.latitude = some q) ∧
        (rx.longitude = none → dx.longitude = none) ∧
        (∀ v, rx.longitude = some v → ∃ q, pyFloat v = Except.ok q ∧ dx.longitude = some q)) ∧
    (∀ (l : List (String × StationRecord)) (sp pen : ℝ) (x : String) (rx : StationRecord)
      (v : JValue) (err : PyError), (x, rx) ∈ l →
      ((rx.latitude = some v ∧ pyFloat v = Except.error err) ∨
        (rx.longitude = some v ∧ pyFloat v = Except.error err)) →
      ∃ err2, build_metro_graph l sp pen = Except.error err2) := by
  constructor
  · intro l sp pen g det x rx hnd h hmem
    obtain ⟨g0, ha, hg⟩ := build_ok_parts l sp pen g det h
    obtain ⟨lat, lon, h1, h2, h3, _⟩ := addStations_detail l ([], []) (g0, det) x rx hnd ha hmem
    refine ⟨⟨lat, lon, rx.lines⟩, h3, ?_, ?_, ?_, ?_⟩
    · intro hnone
      rw [hnone] at h1
      simp [parseCoord] at h1
      show lat = none
      rw [h1]
    · intro v hv
      rw [hv] at h1
      simp only [parseCoord] at h1
      cases hf : pyFloat v with
      | error err =>
        rw [hf] at h1
        simp at h1
      | ok q =>
        rw [hf] at h1
        simp at h1
        exact ⟨q, rfl, by show lat = some q; rw [h1]⟩
    · intro hnone
      rw [hnone] at h2
      simp [parseCoord] at h2
      show lon = none
      rw [h2]
    · intro v hv
      rw [hv] at h2
      simp only [parseCoord] at h2
      cases hf : pyFloat v with
      | error err =>
        rw [hf] at h2
        simp at h2
      | ok q =>
        rw [hf] at h2
        simp at h2
        exact ⟨q, rfl, by show lon = some q; rw [h2]⟩
  · intro l sp pen x rx v err hmem hbad
    have hb2 : (∃ v2 err2, rx.latitude = some v2 ∧ pyFloat v2 = Except.error err2) ∨
        (∃ v2 err2, rx.longitude = some v2 ∧ pyFloat v2 = Except.error err2) := by
      rcases hbad with ⟨h1, h2⟩ | ⟨h1, h2⟩
      · exact Or.inl ⟨v, err, h1, h2⟩
      · exact Or.inr ⟨v, err, h1, h2⟩
    obtain ⟨err2, he⟩ := addStations_error l ([], []) x rx hmem hb2
    refine ⟨err2, ?_⟩
    unfold build_metro_graph
    rw [he]

/-- Witness for C4 at concrete inputs: an absent latitude stays missing while a
present numeric longitude parses (station `B` of `stationsIso`), and the
null-latitude dataset makes the build fail. -/
theorem build_coordinate_error_handling_witness :
    (∃ dx, dictGet (buildDetails stationsIso 40 4) "B" = some dx ∧
      ((none : Option JValue) = none → dx.latitude = none) ∧
      (∀ v, (none : Option JValue) = some v →
        ∃ q, pyFloat v = Except.ok q ∧ dx.latitude = some q) ∧
      ((some (JValue.jnum 51) : Option JValue) = none → dx.longitude = none) ∧
      (∀ v, (some (JValue.jnum 51) : Option JValue) = some v →
        ∃ q, pyFloat v = Except.ok q ∧ dx.longitude = some q)) ∧
    (∃ err2, build_metro_graph stationsNull 40 4 = Except.error err2) :=
  ⟨build_coordinate_error_handling.1 stationsIso 40 4 (buildGraph stationsIso 40 4)
      (buildDetails stationsIso 40 4) "B"
      ⟨none, some (JValue.jnum 51), ["1"], ["A"]⟩ (by decide) rfl (by decide),
    build_coordinate_error_handling.2 stationsNull 40 4 "A"
      ⟨some JValue.jnull, some (JValue.jnum 51), [], []⟩ JValue.jnull PyError.typeError
      (by decide) (Or.inl ⟨rfl, rfl⟩)⟩

/-- C8 counterexample: the detail built for a station with `lines` list
`["1","1"]` stores that duplicated list itself — not a set copy, which could
hold no duplicate. -/
theorem build_lines_not_a_set :
    ∃ (g : Graph ℝ) (det : List (String × StationDetail)) (dx : StationDetail),
      build_metro_graph stationsDup 40 4 = Except.ok (g, det) ∧
        dictGet det "A" = some dx ∧ dx.lines = ["1", "1"] ∧ ¬ dx.lines.Nodup :=
  ⟨[("A", [])], [("A", ⟨none, none, ["1", "1"]⟩)], ⟨none, none, ["1", "1"]⟩,
    rfl, rfl, rfl, by decide⟩

/-- C8 (amended): for every input station the build's `StationDetail` stores
the record's `lines` list exactly as given (order and duplicates preserved,
`[]` when absent) alongside coordinates parsed to a number when present and
null otherwise; sets of lines are only formed later, in the penalty check. -/
theorem build_detail_contents (l : List (String × StationRecord)) (sp pen : ℝ)
    (g : Graph ℝ) (det : List (String × StationDetail)) (x : String) (rx : StationRecord)
    (hnd : (l.map Prod.fst).Nodup)
    (h : build_metro_graph l sp pen = Except.ok (g, det)) (hmem : (x, rx) ∈ l) :
    ∃ lat lon, parseCoord rx.latitude = Except.ok lat ∧
      parseCoord rx.longitude = Except.ok lon ∧
      dictGet det x = some ⟨lat, lon, rx.lines⟩ := by
  obtain ⟨g0, ha, hg⟩ := build_ok_parts l sp pen g det h
  obtain ⟨lat, lon, h1, h2, h3, _⟩ := addStations_detail l ([], []) (g0, det) x rx hnd ha hmem
  exact ⟨lat, lon, h1, h2, h3⟩

/-- Witness for C8 at the duplicated-lines dataset. -/
theorem build_detail_contents_witness :
    ∃ lat lon, parseCoord (none : Option JValue) = Except.ok lat ∧
      parseCoord (none : Option JValue) = Except.ok lon ∧
      dictGet [("A", (⟨none, none, ["1", "1"]⟩ : StationDetail))] "A" =
        some ⟨lat, lon, ["1", "1"]⟩ :=
  build_detail_contents stationsDup 40 4 [("A", [])] [("A", ⟨none, none, ["1", "1"]⟩)]
    "A" ⟨none, none, ["1", "1"], []⟩ (by decide) rfl (by decide)

theorem haversine_symm (lat1 lon1 lat2 lon2 : ℝ) :
    haversine_distance lat1 lon1 lat2 lon2 = haversine_distance lat2 lon2 lat1 lon1 := by
  have h1 : ∀ x y : ℝ, Real.sin ((x - y) / 2) ^ 2 = Real.sin ((y - x) / 2) ^ 2 := by
    intro x y
    have h : (x - y) / 2 = -((y - x) / 2) := by ring
    rw [h, Real.sin_neg, neg_sq]
  simp only [haversine_distance]
  rw [h1 (radians lat2) (radians lat1), h1 (radians lon2) (radians lon1),
    mul_comm (Real.cos (radians lat1)) (Real.cos (radians lat2))]

theorem haversine_nonneg (lat1 lon1 lat2 lon2 : ℝ) :
    0 ≤ haversine_distance lat1 lon1 lat2 lon2 := by
  simp only [haversine_distance]
  refine mul_nonneg (by norm_num [EARTH_RADIUS_KM]) (mul_nonneg (by norm_num) ?_)
  unfold atan2
  exact Complex.arg_nonneg_iff.mpr (by simp)

theorem edgeTime_symm (sp pen : ℝ) (la1 lo1 la2 lo2 : ℚ) (l1 l2 : List String) :
    edgeTime sp pen la1 lo1 la2 lo2 l1 l2 = edgeTime sp pen la2 lo2 la1 lo1 l2 l1 := by
  simp only [edgeTime]
  rw [haversine_symm, Finset.inter_comm]

theorem edgeTime_eq (sp pen : ℝ) (la1 lo1 la2 lo2 : ℚ) (l1 l2 : List String) :
    edgeTime sp pen la1 lo1 la2 lo2 l1 l2 =
      haversine_distance (la1 : ℝ) (lo1 : ℝ) (la2 : ℝ) (lo2 : ℝ) / sp * 60 +
        (if l1.toFinset ∩ l2.toFinset = ∅ then pen else 0) := by
  simp only [edgeTime]
  split
  · rfl
  · rw [add_zero]

theorem edgeTime_ge_term (sp pen : ℝ) (la1 lo1 la2 lo2 : ℚ) (l1 l2 : List String)
    (hsp : 0 < sp) (hpen : 0 ≤ pen) :
    haversine_distance (la1 : ℝ) (lo1 : ℝ) (la2 : ℝ) (lo2 : ℝ) / sp * 60 ≤
        edgeTime sp pen la1 lo1 la2 lo2 l1 l2 ∧
      0 ≤ haversine_distance (la1 : ℝ) (lo1 : ℝ) (la2 : ℝ) (lo2 : ℝ) / sp * 60 := by
  constructor
  · rw [edgeTime_eq]
    split
    · exact le_add_of_nonneg_right hpen
    · rw [add_zero]
  · exact mul_nonneg (div_nonneg (haversine_nonneg _ _ _ _) hsp.le) (by norm_num)

theorem edgeW_setEdge_self {α : Type} (g : Graph α) (a b : String) (t : α) :
    edgeW (setEdge g a b t) a b = some t := by
  unfold edgeW setEdge neighborsOf dictGetD
  rw [dictGet_dictSet_self]
  exact dictGet_dictSet_self _ _ _

theorem edgeW_setEdge_ne {α : Type} (g : Graph α) (a b u v : String) (t : α)
    (h : ¬(u = a ∧ v = b)) : edgeW (setEdge g a b t) u v = edgeW g u v := by
  by_cases hu : u = a
  · subst hu
    have hv : v ≠ b := fun e => h ⟨rfl, e⟩
    unfold edgeW setEdge neighborsOf dictGetD
    rw [dictGet_dictSet_self]
    show dictGet (dictSet (dictGetD g u []) b t) v = _
    rw [dictGet_dictSet_ne _ _ _ _ hv]
    rfl
  · unfold edgeW setEdge neighborsOf dictGetD
    rw [dictGet_dictSet_ne _ _ _ _ hu]

theorem setEdge_isSome {α : Type} (g : Graph α) (a b u v : String) (t : α)
    (h : (edgeW g u v).isSome) : (edgeW (setEdge g a b t) u v).isSome := by
  by_cases hc : u = a ∧ v = b
  · obtain ⟨rfl, rfl⟩ := hc
    rw [edgeW_setEdge_self]
    rfl
  · rw [edgeW_setEdge_ne _ _ _ _ _ _ hc]
    exact h

theorem keys_setEdge {α : Type} (g : Graph α) (a b : String) (t : α)
    (ha : a ∈ keys g) : keys (setEdge g a b t) = keys g :=
  keys_dictSet_mem _ _ _ ha

theorem foldl_preserve_mem {γ δ : Type} (P : δ → Prop) (f : δ → γ → δ) (l : List γ)
    (hstep : ∀ d x, x ∈ l → P d → P (f d x)) :
    ∀ d, P d → P (l.foldl f d) := by
  induction l with
  | nil =>
    intro d hd
    simpa using hd
  | cons x rest ih =>
    intro d hd
    rw [List.foldl_cons]
    exact ih (fun d2 y hy h2 => hstep d2 y (List.mem_cons_of_mem _ hy) h2) _
      (hstep d x (List.mem_cons_self _ _) hd)

theorem relationStep_cases (names : List String) (det : List (String × StationDetail))
    (sp pen : ℝ) (a : String) (g : Graph ℝ) (b : String) :
    relationStep names det sp pen a g b = g ∨
      ∃ da db la1 lo1 la2 lo2,
        b ∈ names ∧
        dictGet det a = some da ∧ dictGet det b = some db ∧
        da.latitude = some la1 ∧ da.longitude = some lo1 ∧
        db.latitude = some la2 ∧ db.longitude = some lo2 ∧
        relationStep names det sp pen a g b =
          setEdge (setEdge g a b (edgeTime sp pen la1 lo1 la2 lo2 da.lines db.lines)) b a
            (edgeTime sp pen la1 lo1 la2 lo2 da.lines db.lines) := by
  unfold relationStep
  by_cases hc : names.contains b
  · rw [if_pos hc]
    cases hda : dictGet det a with
    | none => exact Or.inl rfl
    | some da =>
      cases hdb : dictGet det b with
      | none => exact Or.inl rfl
      | some db =>
        cases h1 : da.latitude with
        | none => exact Or.inl (by simp [h1])
        | some la1 =>
          cases h2 : da.longitude with
          | none => exact Or.inl (by simp [h1, h2])
          | some lo1 =>
            cases h3 : db.latitude with
            | none => exact Or.inl (by simp [h1, h2, h3])
            | some la2 =>
              cases h4 : db.longitude with
              | none => exact Or.inl (by simp [h1, h2, h3, h4])
              | some lo2 =>
                exact Or.inr ⟨da, db, la1, lo1, la2, lo2,
                  List.mem_of_elem_eq_true hc, rfl, rfl, h1, h2, h3, h4,
                  by simp [h1, h2, h3, h4]⟩
  · rw [if_neg hc]
    exact Or.inl rfl

theorem neighborsOf_nodup {α : Type} (g : Graph α) (u : String)
    (h : ∀ p ∈ g, (keys p.2).Nodup) : (keys (neighborsOf g u)).Nodup := by
  unfold neighborsOf dictGetD
  cases hu : dictGet g u with
  | none => simp [keys]
  | some nb =>
    have := h _ (mem_of_dictGet _ _ _ hu)
    simpa using this

theorem setEdge_inner_nodup {α : Type} (g : Graph α) (a b : String) (t : α)
    (h : ∀ p ∈ g, (keys p.2).Nodup) : ∀ p ∈ setEdge g a b t, (keys p.2).Nodup := by
  intro p hp
  rcases mem_dictSet_cases _ _ _ _ hp with h2 | h2
  · rw [h2]
    exact nodup_keys_dictSet _ _ _ (neighborsOf_nodup g a h)
  · exact h p h2

theorem goodEdges_setEdge2 (det : List (String × StationDetail)) (sp pen : ℝ)
    (g : Graph ℝ) (a b : String) (da db : StationDetail) (la1 lo1 la2 lo2 : ℚ) (t : ℝ)
    (hda : dictGet det a = some da) (hdb : dictGet det b = some db)
    (h1 : da.latitude = some la1) (h2 : da.longitude = some lo1)
    (h3 : db.latitude = some la2) (h4 : db.longitude = some lo2)
    (ht : t = edgeTime sp pen la1 lo1 la2 lo2 da.lines db.lines)
    (hg : GoodEdges det sp pen g) :
    GoodEdges det sp pen (setEdge (setEdge g a b t) b a t) := by
  have hedge_ba : edgeW (setEdge (setEdge g a b t) b a t) b a = some t :=
    edgeW_setEdge_self _ _ _ _
  have hedge_ab : edgeW (setEdge (setEdge g a b t) b a t) a b = some t := by
    by_cases hab : a = b
    · subst hab
      exact edgeW_setEdge_self _ _ _ _
    · rw [edgeW_setEdge_ne (setEdge g a b t) b a a b t
        (fun hcc => hab hcc.1)]
      exact edgeW_setEdge_self _ _ _ _
  intro u v w hw
  by_cases hba : u = b ∧ v = a
  · obtain ⟨rfl, rfl⟩ := hba
    rw [hedge_ba] at hw
    have hwt := Option.some.inj hw
    refine ⟨db, da, la2, lo2, la1, lo1, hdb, hda, h3, h4, h1, h2, ?_, ?_⟩
    · rw [← hwt, ht]
      exact edgeTime_symm sp pen la1 lo1 la2 lo2 da.lines db.lines
    · rw [hedge_ab, hwt]
  · by_cases hab : u = a ∧ v = b
    · obtain ⟨rfl, rfl⟩ := hab
      rw [hedge_ab] at hw
      have hwt := Option.some.inj hw
      refine ⟨da, db, la1, lo1, la2, lo2, hda, hdb, h1, h2, h3, h4, ?_, ?_⟩
      · rw [← hwt, ht]
      · rw [hedge_ba, hwt]
    · rw [edgeW_setEdge_ne _ _ _ _ _ _ hba, edgeW_setEdge_ne _ _ _ _ _ _ hab] at hw
      obtain ⟨da2, db2, x1, y1, x2, y2, hda2, hdb2, k1, k2, k3, k4, hval, hsym⟩ := hg u v w hw
      refine ⟨da2, db2, x1, y1, x2, y2, hda2, hdb2, k1, k2, k3, k4, hval, ?_⟩
      have hvu1 : ¬(v = b ∧ u = a) := fun hcc => hab ⟨hcc.2, hcc.1⟩
      have hvu2 : ¬(v = a ∧ u = b) := fun hcc => hba ⟨hcc.2, hcc.1⟩
      rw [edgeW_setEdge_ne _ _ _ _ _ _ hvu1, edgeW_setEdge_ne _ _ _ _ _ _ hvu2]
      exact hsym

theorem relationStep_pass2 (names : List String) (det : List (String × StationDetail))
    (sp pen : ℝ) (K : List String) (a : String) (g : Graph ℝ) (b : String)
    (hdetK : ∀ x, x ∈ keys det → x ∈ K)
    (hg : Pass2Inv det sp pen K g) :
    Pass2Inv det sp pen K (relationStep names det sp pen a g b) := by
  rcases relationStep_cases names det sp pen a g b with
    h | ⟨da, db, la1, lo1, la2, lo2, hbn, hda, hdb, h1, h2, h3, h4, heq⟩
  · rw [h]
    exact hg
  · rw [heq]
    obtain ⟨hGood, hKeys, hNodup⟩ := hg
    have haK : a ∈ keys g := by
      rw [hKeys]
      exact hdetK a ((mem_keys_iff_dictGet det a).mpr (by rw [hda]; rfl))
    have hbK : b ∈ keys g := by
      rw [hKeys]
      exact hdetK b ((mem_keys_iff_dictGet det b).mpr (by rw [hdb]; rfl))
    refine ⟨goodEdges_setEdge2 det sp pen g a b da db la1 lo1 la2 lo2 _ hda hdb
      h1 h2 h3 h4 rfl hGood, ?_, ?_⟩
    · have hb2 : b ∈ keys (setEdge g a b (edgeTime sp pen la1 lo1 la2 lo2 da.lines db.lines)) := by
        rw [keys_setEdge _ _ _ _ haK]
        exact hbK
      rw [keys_setEdge _ _ _ _ hb2, keys_setEdge _ _ _ _ haK]
      exact hKeys
    · exact setEdge_inner_nodup _ _ _ _ (setEdge_inner_nodup _ _ _ _ hNodup)

theorem addEdgesFor_pass2 (names : List String) (det : List (String × StationDetail))
    (sp pen : ℝ) (K : List String) (g : Graph ℝ) (entry : String × StationRecord)
    (hdetK : ∀ x, x ∈ keys det → x ∈ K)
    (hg : Pass2Inv det sp pen K g) :
    Pass2Inv det sp pen K (addEdgesFor names det sp pen g entry) := by
  unfold addEdgesFor
  cases hda : dictGet det entry.1 with
  | none => exact hg
  | some da =>
    show Pass2Inv det sp pen K
      (if da.latitude = none ∨ da.longitude = none then g
        else entry.2.relations.foldl (relationStep names det sp pen entry.1) g)
    by_cases hmiss : da.latitude = none ∨ da.longitude = none
    · rw [if_pos hmiss]
      exact hg
    · rw [if_neg hmiss]
      exact foldl_preserve_mem (Pass2Inv det sp pen K) _ _
        (fun g2 b _ h2 => relationStep_pass2 names det sp pen K entry.1 g2 b hdetK h2) g hg

theorem addStations_keys_list (l : List (String × StationRecord))
    (acc res : Graph ℝ × List (String × StationDetail))
    (h : addStations l acc = Except.ok res)
    (hnd : (l.map Prod.fst).Nodup)
    (hdisj1 : ∀ x ∈ l.map Prod.fst, x ∉ keys acc.1)
    (hdisj2 : ∀ x ∈ l.map Prod.fst, x ∉ keys acc.2) :
    keys res.1 = keys acc.1 ++ l.map Prod.fst ∧
      keys res.2 = keys acc.2 ++ l.map Prod.fst := by
  induction l generalizing acc with
  | nil =>
    simp [addStations] at h
    rw [← h]
    simp
  | cons e rest ih =>
    unfold addStations at h
    cases ha : addStation acc e with
    | error err =>
      rw [ha] at h
      simp at h
    | ok acc2 =>
      rw [ha] at h
      simp at h
      obtain ⟨lat, lon, hlat, hlon, rfl⟩ := addStation_ok acc e acc2 ha
      have he1 : e.1 ∉ keys acc.1 := hdisj1 e.1 (by simp)
      have he2 : e.1 ∉ keys acc.2 := hdisj2 e.1 (by simp)
      have hrest : e.1 ∉ rest.map Prod.fst := by
        rw [List.map_cons] at hnd
        exact (List.nodup_cons.mp hnd).1
      have hd1 : ∀ x ∈ rest.map Prod.fst, x ∉ keys (dictSet acc.1 e.1 []) := by
        intro x hx
        rw [keys_dictSet_new _ _ _ he1, List.mem_append, List.mem_singleton]
        push_neg
        refine ⟨hdisj1 x (by simp [hx]), ?_⟩
        intro he
        exact hrest (he ▸ hx)
      have hd2 : ∀ x ∈ rest.map Prod.fst,
          x ∉ keys (dictSet acc.2 e.1 ⟨lat, lon, e.2.lines⟩) := by
        intro x hx
        rw [keys_dictSet_new _ _ _ he2, List.mem_append, List.mem_singleton]
        push_neg
        refine ⟨hdisj2 x (by simp [hx]), ?_⟩
        intro he
        exact hrest (he ▸ hx)
      have hi := ih _ h (by rw [List.map_cons] at hnd; exact (List.nodup_cons.mp hnd).2) hd1 hd2
      constructor
      · rw [hi.1]
        show keys (dictSet acc.1 e.1 []) ++ _ = _
        rw [keys_dictSet_new _ _ _ he1, List.map_cons, List.append_assoc,
          List.singleton_append]
      · rw [hi.2]
        show keys (dictSet acc.2 e.1 ⟨lat, lon, e.2.lines⟩) ++ _ = _
        rw [keys_dictSet_new _ _ _ he2, List.map_cons, List.append_assoc,
          List.singleton_append]

theorem build_pass2 (l : List (String × StationRecord)) (sp pen : ℝ)
    (g : Graph ℝ) (det : List (String × StationDetail))
    (hnd : (l.map Prod.fst).Nodup)
    (hb : build_metro_graph l sp pen = Except.ok (g, det)) :
    Pass2Inv det sp pen (l.map Prod.fst) g ∧ keys det = l.map Prod.fst := by
  obtain ⟨g0, ha, hg⟩ := build_ok_parts l sp pen g det hb
  have hkl := addStations_keys_list l ([], []) (g0, det) ha hnd
    (by simp [keys]) (by simp [keys])
  have hkg0 : keys g0 = l.map Prod.fst := by simpa using hkl.1
  have hkdet : keys det = l.map Prod.fst := by simpa using hkl.2
  have hdetK : ∀ x, x ∈ keys det → x ∈ l.map Prod.fst := fun x hx => hkdet ▸ hx
  have hbase : Pass2Inv det sp pen (l.map Prod.fst) g0 := by
    refine ⟨?_, hkg0, ?_⟩
    · intro a b w hw
      unfold edgeW neighborsOf dictGetD at hw
      cases hga : dictGet g0 a with
      | none =>
        rw [hga] at hw
        simp [dictGet] at hw
      | some nb =>
        rw [hga] at hw
        have hin := addStations_inner l ([], []) (g0, det) ha (a, nb)
          (mem_of_dictGet _ _ _ hga)
        rcases hin with h2 | h2
        · simp at h2
        · simp only [] at h2
          rw [h2] at hw
          simp [dictGet] at hw
    · intro p hp
      rcases addStations_inner l ([], []) (g0, det) ha p hp with h2 | h2
      · simp at h2
      · rw [h2]
        simp [keys]
  rw [hg]
  exact ⟨foldl_preserve_mem _ _ _ (fun g2 entry _ h2 =>
    addEdgesFor_pass2 (l.map Prod.fst) det sp pen (l.map Prod.fst) g2 entry hdetK h2)
    g0 hbase, hkdet⟩

/-- C3: in every graph `build_metro_graph` returns, an edge `a → b` of weight
`w` has the reverse edge `b → a` present with the same weight `w`; and every
recorded weight is the value computed from the two stations' details alone, so
a relation listed from both endpoints makes the second pass overwrite the edge
with an equal value — idempotent, never additive. -/
theorem build_graph_symmetric (l : List (String × StationRecord)) (sp pen : ℝ)
    (g : Graph ℝ) (det : List (String × StationDetail))
    (hnd : (l.map Prod.fst).Nodup)
    (hb : build_metro_graph l sp pen = Except.ok (g, det)) :
    (∀ a b w, edgeW g a b = some w → edgeW g b a = some w) ∧
      (∀ a b w, edgeW g a b = some w →
        ∃ da db la1 lo1 la2 lo2,
          dictGet det a = some da ∧ dictGet det b = some db ∧
          da.latitude = some la1 ∧ da.longitude = some lo1 ∧
          db.latitude = some la2 ∧ db.longitude = some lo2 ∧
          w = edgeTime sp pen la1 lo1 la2 lo2 da.lines db.lines) := by
  obtain ⟨⟨hGood, _, _⟩, _⟩ := build_pass2 l sp pen g det hnd hb
  constructor
  · intro a b w hw
    obtain ⟨_, _, _, _, _, _, _, _, _, _, _, _, _, hsym⟩ := hGood a b w hw
    exact hsym
  · intro a b w hw
    obtain ⟨da, db, la1, lo1, la2, lo2, hda, hdb, h1, h2, h3, h4, hval, _⟩ :=
      hGood a b w hw
    exact ⟨da, db, la1, lo1, la2, lo2, hda, hdb, h1, h2, h3, h4, hval⟩

/-- Witness for C3 at the two-station dataset whose relation is listed from
both sides. -/
theorem build_graph_symmetric_witness :
    (∀ a b w, edgeW (buildGraph stationsPair 40 4) a b = some w →
      edgeW (buildGraph stationsPair 40 4) b a = some w) ∧
      (∀ a b w, edgeW (buildGraph stationsPair 40 4) a b = some w →
        ∃ da db la1 lo1 la2 lo2,
          dictGet (buildDetails stationsPair 40 4) a = some da ∧
          dictGet (buildDetails stationsPair 40 4) b = some db ∧
          da.latitude = some la1 ∧ da.longitude = some lo1 ∧
          db.latitude = some la2 ∧ db.longitude = some lo2 ∧
          w = edgeTime 40 4 la1 lo1 la2 lo2 da.lines db.lines) :=
  build_graph_symmetric stationsPair 40 4 (buildGraph stationsPair 40 4)
    (buildDetails stationsPair 40 4) (by decide) rfl

theorem setEdge2_self_ab {α : Type} (g : Graph α) (a b : String) (t : α) :
    edgeW (setEdge (setEdge g a b t) b a t) a b = some t := by
  by_cases hab : a = b
  · subst hab
    exact edgeW_setEdge_self _ _ _ _
  · rw [edgeW_setEdge_ne (setEdge g a b t) b a a b t (fun hcc => hab hcc.1)]
    exact edgeW_setEdge_self _ _ _ _

theorem relationStep_eq (names : List String) (det : List (String × StationDetail))
    (sp pen : ℝ) (a : String) (g : Graph ℝ) (b : String) (da db : StationDetail)
    (la1 lo1 la2 lo2 : ℚ)
    (hbn : names.contains b = true)
    (hda : dictGet det a = some da) (hdb : dictGet det b = some db)
    (h1 : da.latitude = some la1) (h2 : da.longitude = some lo1)
    (h3 : db.latitude = some la2) (h4 : db.longitude = some lo2) :
    relationStep names det sp pen a g b =
      setEdge (setEdge g a b (edgeTime sp pen la1 lo1 la2 lo2 da.lines db.lines)) b a
        (edgeTime sp pen la1 lo1 la2 lo2 da.lines db.lines) := by
  unfold relationStep
  have hmem : b ∈ names := List.mem_of_elem_eq_true hbn
  simp [hbn, hmem, hda, hdb, h1, h2, h3, h4]

theorem relationStep_isSome (names : List String) (det : List (String × StationDetail))
    (sp pen : ℝ) (a : String) (g : Graph ℝ) (b u v : String)
    (h : (edgeW g u v).isSome) :
    (edgeW (relationStep names det sp pen a g b) u v).isSome := by
  rcases relationStep_cases names det sp pen a g b with
    h2 | ⟨da, db, la1, lo1, la2, lo2, _, _, _, _, _, _, _, heq⟩
  · rw [h2]
    exact h
  · rw [heq]
    exact setEdge_isSome _ _ _ _ _ _ (setEdge_isSome _ _ _ _ _ _ h)

theorem addEdgesFor_isSome (names : List String) (det : List (String × StationDetail))
    (sp pen : ℝ) (g : Graph ℝ) (entry : String × StationRecord) (u v : String)
    (h : (edgeW g u v).isSome) :
    (edgeW (addEdgesFor names det sp pen g entry) u v).isSome := by
  unfold addEdgesFor
  cases hda : dictGet det entry.1 with
  | none => exact h
  | some da =>
    show (edgeW (if da.latitude = none ∨ da.longitude = none then g
      else entry.2.relations.foldl (relationStep names det sp pen entry.1) g) u v).isSome
    by_cases hmiss : da.latitude = none ∨ da.longitude = none
    · rw [if_pos hmiss]
      exact h
    · rw [if_neg hmiss]
      exact foldl_preserve_mem (fun g2 => (edgeW g2 u v).isSome) _ _
        (fun g2 b _ h2 => relationStep_isSome names det sp pen entry.1 g2 b u v h2) g h

theorem build_edge_exists (l : List (String × StationRecord)) (sp pen : ℝ)
    (g : Graph ℝ) (det : List (String × StationDetail)) (a : String)
    (ra : StationRecord) (b : String) (da db : StationDetail) (la1 lo1 la2 lo2 : ℚ)
    (hnd : (l.map Prod.fst).Nodup)
    (hb : build_metro_graph l sp pen = Except.ok (g, det))
    (hmem : (a, ra) ∈ l) (hrel : b ∈ ra.relations) (hbk : b ∈ l.map Prod.fst)
    (hda : dictGet det a = some da) (hdb : dictGet det b = some db)
    (h1 : da.latitude = some la1) (h2 : da.longitude = some lo1)
    (h3 : db.latitude = some la2) (h4 : db.longitude = some lo2) :
    (edgeW g a b).isSome := by
  obtain ⟨g0, ha, hg⟩ := build_ok_parts l sp pen g det hb
  obtain ⟨l1, l2, rfl⟩ := List.append_of_mem hmem
  rw [hg, List.foldl_append, List.foldl_cons]
  apply foldl_preserve_mem (fun g2 => (edgeW g2 a b).isSome) _ _
    (fun g2 entry _ h2 => addEdgesFor_isSome _ det sp pen g2 entry a b h2)
  show (edgeW (addEdgesFor _ det sp pen _ (a, ra)) a b).isSome
  unfold addEdgesFor
  rw [hda]
  show (edgeW (if da.latitude = none ∨ da.longitude = none then _
    else ra.relations.foldl (relationStep _ det sp pen a) _) a b).isSome
  rw [if_neg (by simp [h1, h2])]
  obtain ⟨r1, r2, hrr⟩ := List.append_of_mem hrel
  rw [hrr, List.foldl_append, List.foldl_cons]
  apply foldl_preserve_mem (fun g2 => (edgeW g2 a b).isSome) _ _
    (fun g2 c _ h2 => relationStep_isSome _ det sp pen a g2 c a b h2)
  rw [relationStep_eq _ det sp pen a _ b da db la1 lo1 la2 lo2
    (List.elem_eq_true_of_mem hbk) hda hdb h1 h2 h3 h4]
  rw [setEdge2_self_ab]
  rfl

/-- C2: for every edge `build_metro_graph` creates between adjacent stations
`a` and `b` with present coordinates, the recorded weight is exactly the
haversine travel-time term `(distance_km / speed) * 60` plus the configured
penalty when the two line sets do not intersect and nothing when they share a
line; and for a positive speed and nonnegative penalty the weight is at least
the travel-time term, which is itself nonnegative. -/
theorem build_edge_weight (l : List (String × StationRecord)) (sp pen : ℝ)
    (g : Graph ℝ) (det : List (String × StationDetail)) (a : String)
    (ra : StationRecord) (b : String) (da db : StationDetail) (la1 lo1 la2 lo2 : ℚ)
    (hnd : (l.map Prod.fst).Nodup)
    (hb : build_metro_graph l sp pen = Except.ok (g, det))
    (hmem : (a, ra) ∈ l) (hrel : b ∈ ra.relations) (hbk : b ∈ l.map Prod.fst)
    (hda : dictGet det a = some da) (hdb : dictGet det b = some db)
    (h1 : da.latitude = some la1) (h2 : da.longitude = some lo1)
    (h3 : db.latitude = some la2) (h4 : db.longitude = some lo2) :
    edgeW g a b = some (edgeTime sp pen la1 lo1 la2 lo2 da.lines db.lines) ∧
      edgeTime sp pen la1 lo1 la2 lo2 da.lines db.lines =
        haversine_distance (la1 : ℝ) (lo1 : ℝ) (la2 : ℝ) (lo2 : ℝ) / sp * 60 +
          (if da.lines.toFinset ∩ db.lines.toFinset = ∅ then pen else 0) ∧
      (0 < sp → 0 ≤ pen →
        haversine_distance (la1 : ℝ) (lo1 : ℝ) (la2 : ℝ) (lo2 : ℝ) / sp * 60 ≤
            edgeTime sp pen la1 lo1 la2 lo2 da.lines db.lines ∧
          0 ≤ haversine_distance (la1 : ℝ) (lo1 : ℝ) (la2 : ℝ) (lo2 : ℝ) / sp * 60) := by
  have hsome := build_edge_exists l sp pen g det a ra b da db la1 lo1 la2 lo2
    hnd hb hmem hrel hbk hda hdb h1 h2 h3 h4
  obtain ⟨w, hw⟩ := Option.isSome_iff_exists.mp hsome
  obtain ⟨⟨hGood, _, _⟩, _⟩ := build_pass2 l sp pen g det hnd hb
  obtain ⟨da2, db2, x1, y1, x2, y2, hda2, hdb2, k1, k2, k3, k4, hval, _⟩ :=
    hGood a b w hw
  rw [hda] at hda2
  obtain rfl := Option.some.inj hda2
  rw [hdb] at hdb2
  obtain rfl := Option.some.inj hdb2
  rw [h1] at k1
  obtain rfl := Option.some.inj k1
  rw [h2] at k2
  obtain rfl := Option.some.inj k2
  rw [h3] at k3
  obtain rfl := Option.some.inj k3
  rw [h4] at k4
  obtain rfl := Option.some.inj k4
  refine ⟨?_, edgeTime_eq sp pen la1 lo1 la2 lo2 da.lines db.lines,
    fun hsp hpen => edgeTime_ge_term sp pen la1 lo1 la2 lo2 da.lines db.lines hsp hpen⟩
  rw [hw, hval]

/-- Witness for C2 at the two-station dataset sharing line 1. -/
theorem build_edge_weight_witness :
    edgeW (buildGraph stationsPair 40 4) "A" "B" =
        some (edgeTime 40 4 35 51 35 (515 / 10) ["1"] ["1", "2"]) ∧
      edgeTime 40 4 35 51 35 (515 / 10) ["1"] ["1", "2"] =
        haversine_distance ((35 : ℚ) : ℝ) ((51 : ℚ) : ℝ) ((35 : ℚ) : ℝ)
            (((515 / 10 : ℚ)) : ℝ) / 40 * 60 +
          (if (["1"] : List String).toFinset ∩ (["1", "2"] : List String).toFinset = ∅
            then 4 else 0) ∧
      ((0 : ℝ) < 40 → (0 : ℝ) ≤ 4 →
        haversine_distance ((35 : ℚ) : ℝ) ((51 : ℚ) : ℝ) ((35 : ℚ) : ℝ)
            (((515 / 10 : ℚ)) : ℝ) / 40 * 60 ≤
            edgeTime 40 4 35 51 35 (515 / 10) ["1"] ["1", "2"] ∧
          0 ≤ haversine_distance ((35 : ℚ) : ℝ) ((51 : ℚ) : ℝ) ((35 : ℚ) : ℝ)
            (((515 / 10 : ℚ)) : ℝ) / 40 * 60) :=
  build_edge_weight stationsPair 40 4 (buildGraph stationsPair 40 4)
    (buildDetails stationsPair 40 4) "A" ⟨some (JValue.jnum 35), some (JValue.jnum 51), ["1"], ["B"]⟩
    "B" ⟨some 35, some 51, ["1"]⟩ ⟨some 35, some (515 / 10), ["1", "2"]⟩
    35 51 35 (515 / 10) (by decide) rfl (by decide) (by decide) (by decide)
    rfl rfl rfl rfl rfl rfl

/-- C6: a station whose parsed record lacks a latitude or longitude is still a
graph node with an empty neighbor map, and no edge involving it is created in
either direction. -/
theorem build_isolated_station (l : List (String × StationRecord)) (sp pen : ℝ)
    (g : Graph ℝ) (det : List (String × StationDetail)) (x : String) (dx : StationDetail)
    (hnd : (l.map Prod.fst).Nodup)
    (hb : build_metro_graph l sp pen = Except.ok (g, det))
    (hxk : x ∈ l.map Prod.fst)
    (hdx : dictGet det x = some dx)
    (hmiss : dx.latitude = none ∨ dx.longitude = none) :
    dictGet g x = some [] ∧ ∀ c, edgeW g x c = none ∧ edgeW g c x = none := by
  obtain ⟨⟨hGood, hKeys, hNodup⟩, hkdet⟩ := build_pass2 l sp pen g det hnd hb
  have hout : ∀ c, edgeW g x c = none := by
    intro c
    cases hw : edgeW g x c with
    | none => rfl
    | some w =>
      obtain ⟨da, db, la1, lo1, la2, lo2, hda, hdb2, k1, k2, k3, k4, _, _⟩ :=
        hGood x c w hw
      rw [hdx] at hda
      obtain rfl := Option.some.inj hda
      rcases hmiss with hm | hm
      · rw [hm] at k1
        exact Option.noConfusion k1
      · rw [hm] at k2
        exact Option.noConfusion k2
  have hin : ∀ c, edgeW g c x = none := by
    intro c
    cases hw : edgeW g c x with
    | none => rfl
    | some w =>
      obtain ⟨da, db, la1, lo1, la2, lo2, hda2, hdb, k1, k2, k3, k4, _, _⟩ :=
        hGood c x w hw
      rw [hdx] at hdb
      obtain rfl := Option.some.inj hdb
      rcases hmiss with hm | hm
      · rw [hm] at k3
        exact Option.noConfusion k3
      · rw [hm] at k4
        exact Option.noConfusion k4
  refine ⟨?_, fun c => ⟨hout c, hin c⟩⟩
  have hxg : x ∈ keys g := by
    rw [hKeys]
    exact hxk
  rw [mem_keys_iff_dictGet] at hxg
  obtain ⟨nb, hnb⟩ := Option.isSome_iff_exists.mp hxg
  rw [hnb]
  cases hcase : nb with
  | nil => rfl
  | cons q rest =>
    have hqe : edgeW g x q.1 = none := hout q.1
    unfold edgeW neighborsOf dictGetD at hqe
    rw [hnb] at hqe
    simp only [Option.getD_some] at hqe
    rw [hcase, dictGet_cons, if_pos rfl] at hqe
    exact Option.noConfusion hqe

/-- Witness for C6 at the dataset whose station `B` lacks a latitude. -/
theorem build_isolated_station_witness :
    dictGet (buildGraph stationsIso 40 4) "B" = some [] ∧
      ∀ c, edgeW (buildGraph stationsIso 40 4) "B" c = none ∧
        edgeW (buildGraph stationsIso 40 4) c "B" = none :=
  build_isolated_station stationsIso 40 4 (buildGraph stationsIso 40 4)
    (buildDetails stationsIso 40 4) "B" ⟨none, some 51, ["1"]⟩
    (by decide) rfl (by decide) rfl (Or.inl rfl)

theorem edgeW_of_mem_neighbors {α : Type} (g : Graph α) (u v : String) (w : α)
    (Hwf : GraphWF g) (h : (v, w) ∈ neighborsOf g u) : edgeW g u v = some w := by
  unfold neighborsOf dictGetD at h
  cases hu : dictGet g u with
  | none =>
    rw [hu] at h
    simp at h
  | some nb =>
    rw [hu] at h
    simp only [Option.getD_some] at h
    have hmem := mem_of_dictGet _ _ _ hu
    unfold edgeW neighborsOf dictGetD
    rw [hu]
    simp only [Option.getD_some]
    exact dictGet_of_mem _ _ _ (Hwf.2 _ hmem).1 h

theorem edgeW_target_mem_keys {α : Type} (g : Graph α) (u v : String) (w : α)
    (Hwf : GraphWF g) (h : edgeW g u v = some w) : v ∈ keys g := by
  unfold edgeW neighborsOf dictGetD at h
  cases hu : dictGet g u with
  | none =>
    rw [hu] at h
    simp [dictGet] at h
  | some nb =>
    rw [hu] at h
    simp only [Option.getD_some] at h
    exact (Hwf.2 _ (mem_of_dictGet _ _ _ hu)).2 _ (mem_of_dictGet _ _ _ h)

theorem nonneg_edgeW {α : Type} [LinearOrderedAddCommMonoid α] (g : Graph α)
    (hnn : NonnegWeights g) (u v : String) (w : α) (h : edgeW g u v = some w) :
    0 ≤ w := by
  unfold edgeW neighborsOf dictGetD at h
  cases hu : dictGet g u with
  | none =>
    rw [hu] at h
    simp [dictGet] at h
  | some nb =>
    rw [hu] at h
    simp only [Option.getD_some] at h
    exact hnn _ (mem_of_dictGet _ _ _ hu) _ (mem_of_dictGet _ _ _ h)

theorem isPath_start_not_disabled {α : Type} [LinearOrderedAddCommMonoid α]
    {g : Graph α} {D : List String} {s e : String} {p : List String} {c : α}
    (h : IsPath g D s e p c) : s ∉ D := by
  cases h with
  | single _ hu => exact hu
  | cons _ _ _ _ _ _ hu _ _ => exact hu

theorem isPath_end_not_disabled {α : Type} [LinearOrderedAddCommMonoid α]
    {g : Graph α} {D : List String} {s e : String} {p : List String} {c : α}
    (h : IsPath g D s e p c) : e ∉ D := by
  induction h with
  | single _ hu => exact hu
  | cons _ _ _ _ _ _ _ _ _ ih => exact ih

theorem isPath_cost_nonneg {α : Type} [LinearOrderedAddCommMonoid α]
    {g : Graph α} {D : List String} {s e : String} {p : List String} {c : α}
    (Hnn : ∀ a b w, edgeW g a b = some w → 0 ≤ w)
    (h : IsPath g D s e p c) : 0 ≤ c := by
  induction h with
  | single _ _ => exact le_refl 0
  | cons u v e2 w c2 p2 hu hw hp ih =>
    have := Hnn u v w hw
    have h2 : (0 : α) + 0 ≤ w + c2 := add_le_add this ih
    rwa [add_zero] at h2

theorem isPath_shape {α : Type} [LinearOrderedAddCommMonoid α]
    {g : Graph α} {D : List String} {s e : String} {p : List String} {c : α}
    (h : IsPath g D s e p c) :
    p ≠ [] ∧ p.head? = some s ∧ p.getLast? = some e ∧
      List.Chain' (fun u v => (edgeW g u v).isSome) p := by
  induction h with
  | single u hu => exact ⟨by simp, rfl, rfl, List.chain'_singleton u⟩
  | cons u v e2 w c2 p2 hu hw hp ih =>
    obtain ⟨hne, hhead, hlast, hchain⟩ := ih
    refine ⟨by simp, rfl, ?_, ?_⟩
    · cases p2 with
      | nil => exact absurd rfl hne
      | cons a l =>
        rw [List.getLast?_cons_cons]
        exact hlast
    · rw [List.chain'_cons']
      refine ⟨?_, hchain⟩
      intro y hy
      rw [hhead] at hy
      simp at hy
      rw [← hy, hw]
      rfl

theorem isPath_cost_cast {α : Type} [LinearOrderedAddCommMonoid α]
    {g : Graph α} {D : List String} {s e : String} {p : List String} {c c2 : α}
    (h : IsPath g D s e p c) (hc : c = c2) : IsPath g D s e p c2 := hc ▸ h

theorem isPath_snoc {α : Type} [LinearOrderedAddCommMonoid α]
    {g : Graph α} {D : List String} {s u v : String} {p : List String} {c w : α}
    (h : IsPath g D s u p c) (hw : edgeW g u v = some w) (hv : v ∉ D) :
    IsPath g D s v (p ++ [v]) (c + w) := by
  induction h with
  | single a ha =>
    have h2 : IsPath g D a v [a, v] (w + 0) :=
      IsPath.cons a v v w 0 [v] ha hw (IsPath.single v hv)
    exact isPath_cost_cast h2 (by rw [add_zero, zero_add])
  | cons a b e2 w2 c2 p2 ha hw2 hp ih =>
    have h2 := IsPath.cons a b v w2 (c2 + w) (p2 ++ [v]) ha hw2 (ih hw)
    exact isPath_cost_cast h2 (add_assoc w2 c2 w).symm

theorem isPath_pathSum {α : Type} [LinearOrderedAddCommMonoid α]
    {g : Graph α} {D : List String} {s e : String} {p : List String} {c : α}
    (h : IsPath g D s e p c) : pathSum g p = some c := by
  induction h with
  | single u hu => rfl
  | cons u v e2 w c2 p2 hu hw hp ih =>
    obtain ⟨hne, hhead, -, -⟩ := isPath_shape hp
    cases p2 with
    | nil => exact absurd rfl hne
    | cons a l =>
      have hav : a = v := by simpa using hhead
      subst hav
      show pathSum g (u :: a :: l) = some (w + c2)
      simp only [pathSum]
      rw [hw, ih]

theorem isPath_boundary {α : Type} [LinearOrderedAddCommMonoid α]
    (g : Graph α) (D S : List String) (a e : String) (p : List String) (c : α)
    (Hnn : ∀ x y w, edgeW g x y = some w → 0 ≤ w)
    (hp : IsPath g D a e p c) (ha : a ∈ S) (he : e ∉ S) :
    ∃ u v w c1, u ∈ S ∧ v ∉ S ∧ edgeW g u v = some w ∧ v ∉ D ∧
      (∃ q, IsPath g D a u q c1) ∧ c1 + w ≤ c := by
  induction hp with
  | single x hx => exact absurd ha he
  | cons x y e2 w2 c2 p2 hx hw2 hp2 ih =>
    by_cases hy : y ∈ S
    · obtain ⟨u, v, w, c1, hu, hv, hw, hvD, ⟨q, hq⟩, hb⟩ := ih hy he
      refine ⟨u, v, w, w2 + c1, hu, hv, hw, hvD,
        ⟨x :: q, IsPath.cons x y u w2 c1 q hx hw2 hq⟩, ?_⟩
      rw [add_assoc]
      exact add_le_add_left hb w2
    · refine ⟨x, y, w2, 0, ha, hy, hw2, isPath_start_not_disabled hp2,
        ⟨[x], IsPath.single x hx⟩, ?_⟩
      rw [zero_add]
      exact le_add_of_nonneg_right (isPath_cost_nonneg Hnn hp2)

theorem reconstructPath_succ (prev : String → Option String) (f : Nat) (c : String)
    (acc : List String) :
    reconstructPath prev (f + 1) (some c) acc = reconstructPath prev f (prev c) (c :: acc) :=
  rfl

theorem reconstructPath_mono (prev : String → Option String) :
    ∀ (f : Nat) (cur : Option String) (acc : List String) (p : List String),
      reconstructPath prev f cur acc = some p →
      ∀ f2, f ≤ f2 → reconstructPath prev f2 cur acc = some p := by
  intro f
  induction f with
  | zero =>
    intro cur acc p h
    exact absurd h (by simp [reconstructPath])
  | succ f3 ih =>
    intro cur acc p h f2 hle
    obtain ⟨f4, rfl⟩ : ∃ f4, f2 = f4 + 1 := ⟨f2 - 1, by omega⟩
    cases cur with
    | none => exact h
    | some c =>
      rw [reconstructPath_succ] at h ⊢
      exact ih _ _ _ h f4 (by omega)

theorem reconstructPath_acc (prev : String → Option String) :
    ∀ (f : Nat) (cur : Option String) (acc : List String),
      reconstructPath prev f cur acc =
        (reconstructPath prev f cur []).map (fun q => q ++ acc) := by
  intro f
  induction f with
  | zero => intro cur acc; rfl
  | succ f2 ih =>
    intro cur acc
    cases cur with
    | none => rfl
    | some c =>
      rw [reconstructPath_succ, reconstructPath_succ, ih (prev c) (c :: acc),
        ih (prev c) [c]]
      cases reconstructPath prev f2 (prev c) [] with
      | none => rfl
      | some q => simp

theorem reconstructPath_congr (prev prev2 : String → Option String) :
    ∀ (f : Nat) (x : String) (p : List String),
      reconstructPath prev f (some x) [] = some p →
      (∀ y ∈ p, prev2 y = prev y) →
      reconstructPath prev2 f (some x) [] = some p := by
  intro f
  induction f with
  | zero =>
    intro x p h
    exact absurd h (by simp [reconstructPath])
  | succ f2 ih =>
    intro x p h hagree
    rw [reconstructPath_succ, reconstructPath_acc prev f2 (prev x) [x]] at h
    cases hq : reconstructPath prev f2 (prev x) [] with
    | none =>
      rw [hq] at h
      simp at h
    | some q =>
      rw [hq] at h
      simp at h
      have hxp : x ∈ p := by
        rw [← h]
        simp
      rw [reconstructPath_succ, hagree x hxp,
        reconstructPath_acc prev2 f2 (prev x) [x]]
      cases hpx : prev x with
      | none =>
        cases f2 with
        | zero =>
          rw [hpx] at hq
          exact absurd hq (by simp [reconstructPath])
        | succ f3 =>
          rw [hpx] at hq
          have h0 : reconstructPath prev (f3 + 1) none [] = some [] := rfl
          rw [h0] at hq
          have hqn : q = [] := (Option.some.inj hq).symm
          have h1 : reconstructPath prev2 (f3 + 1) none [] = some [] := rfl
          rw [h1, ← h, hqn]
          rfl
      | some c =>
        rw [hpx] at hq
        have hsub : ∀ y ∈ q, prev2 y = prev y := by
          intro y hy
          exact hagree y (by rw [← h]; exact List.mem_append_left _ hy)
        rw [ih c q hq hsub]
        simp [h]

theorem nodup_subset_length (p q : List String) (hp : p.Nodup)
    (hsub : ∀ x ∈ p, x ∈ q) : p.length ≤ q.length := by
  calc p.length = p.toFinset.card := (List.toFinset_card_of_nodup hp).symm
    _ ≤ q.toFinset.card := Finset.card_le_card
      (fun x hx => List.mem_toFinset.mpr (hsub x (List.mem_toFinset.mp hx)))
    _ ≤ q.length := q.toFinset_card_le

theorem lePair_fst_le {α : Type} [LinearOrder α] {x y : α × String}
    (h : lePair x y) : x.1 ≤ y.1 := by
  rcases h with h | ⟨h, -⟩
  · exact le_of_lt h
  · exact le_of_eq h

theorem relaxNeighbors_noop {α : Type} [LinearOrderedAddCommMonoid α]
    (D : List String) (u : String) (du : α) (ns : List (String × α))
    (dist : String → WithTop α) (prev : String → Option String)
    (pq : List (α × String))
    (h : ∀ vw ∈ ns, vw.1 ∉ D → ¬(((du + vw.2 : α) : WithTop α) < dist vw.1)) :
    relaxNeighbors D u du ns dist prev pq = (dist, prev, pq) := by
  induction ns with
  | nil => rfl
  | cons vw rest ih =>
    show relaxNeighbors D u du (vw :: rest) dist prev pq = _
    by_cases hvD : vw.1 ∈ D
    · show (if vw.1 ∈ D then relaxNeighbors D u du rest dist prev pq else _) = _
      rw [if_pos hvD]
      exact ih (fun q hq hqD => h q (List.mem_cons_of_mem _ hq) hqD)
    · show (if vw.1 ∈ D then _ else
        (if ((du + vw.2 : α) : WithTop α) < dist vw.1 then _
          else relaxNeighbors D u du rest dist prev pq)) = _
      rw [if_neg hvD, if_neg (h vw (List.mem_cons_self _ _) hvD)]
      exact ih (fun q hq hqD => h q (List.mem_cons_of_mem _ hq) hqD)

theorem pop_minimal {α : Type} [LinearOrderedAddCommMonoid α] (g : Graph α)
    (D : List String) (s : String) (S : List String) (dist : String → WithTop α)
    (prev : String → Option String) (pq : List (α × String))
    (Hnn : ∀ a b w, edgeW g a b = some w → 0 ≤ w)
    (hC : DCore g D s S dist prev pq) (hR : Relaxed g D S dist)
    (d : α) (u : String) (rest : List (α × String))
    (hpop : popMin pq = some ((d, u), rest)) (huS : u ∉ S) :
    ∀ p c, IsPath g D s u p c → d ≤ c := by
  intro p c hp
  by_cases hsS : s ∈ S
  · obtain ⟨ub, vb, wb, c1, hubS, hvbS, hwb, hvbD, ⟨q, hq⟩, hbound⟩ :=
      isPath_boundary g D S s u p c Hnn hp hsS huS
    cases htb : dist ub with
    | top => exact absurd htb (hC.processed_fin ub hubS)
    | coe tb =>
      have htb_le : tb ≤ c1 := hC.processed_min ub tb hubS htb q c1 hq
      have hmemn : (vb, wb) ∈ neighborsOf g ub := mem_of_dictGet _ _ _ hwb
      have hdvb : dist vb ≤ ((tb + wb : α) : WithTop α) :=
        hR ub tb hubS htb (vb, wb) hmemn hvbD
      cases htv : dist vb with
      | top =>
        rw [htv] at hdvb
        exact absurd hdvb (by simp)
      | coe tv =>
        rw [htv] at hdvb
        have htv_le : tv ≤ tb + wb := WithTop.coe_le_coe.mp hdvb
        have hfr : (tv, vb) ∈ pq := hC.frontier vb tv hvbS htv
        have hle := lePair_fst_le (popMin_le pq (d, u) rest hpop (tv, vb) hfr)
        calc d ≤ tv := hle
          _ ≤ tb + wb := htv_le
          _ ≤ c1 + wb := add_le_add_right htb_le wb
          _ ≤ c := hbound
  · have hfr : ((0 : α), s) ∈ pq := hC.frontier s 0 hsS hC.dist_start
    have hle := lePair_fst_le (popMin_le pq (d, u) rest hpop (0, s) hfr)
    exact le_trans hle (isPath_cost_nonneg Hnn hp)

theorem relax_no_improve {α : Type} [LinearOrderedAddCommMonoid α] (g : Graph α)
    (D : List String) (s : String) (S : List String) (u : String) (du : α)
    (dist : String → WithTop α) (prev : String → Option String)
    (pq : List (α × String))
    (hC : DCore g D s (u :: S) dist prev pq) (hdu : dist u = (du : WithTop α))
    (v : String) (w : α)
    (hvw : edgeW g u v = some w) (hvD : v ∉ D) (hvS : v ∈ u :: S) :
    ¬(((du + w : α) : WithTop α) < dist v) := by
  obtain ⟨pu, hpu, -, -, -⟩ := hC.chain u du hdu
  have hpath : IsPath g D s v (pu ++ [v]) (du + w) := isPath_snoc hpu hvw hvD
  cases htv : dist v with
  | top => exact absurd htv (hC.processed_fin v hvS)
  | coe tv =>
    have := hC.processed_min v tv hvS htv _ _ hpath
    exact not_lt.mpr (WithTop.coe_le_coe.mpr this)

theorem isPath_mem_dropLast_or_end {α : Type} [LinearOrderedAddCommMonoid α]
    {g : Graph α} {D : List String} {s e : String} {p : List String} {c : α}
    (h : IsPath g D s e p c) : ∀ y ∈ p, y ∈ p.dropLast ∨ y = e := by
  obtain ⟨hne, -, hlast, -⟩ := isPath_shape h
  have hgl : p.getLast hne = e := by
    have := List.getLast?_eq_getLast p hne
    rw [this] at hlast
    exact Option.some.inj hlast
  have hdecomp : p.dropLast ++ [e] = p := by
    rw [← hgl]
    exact List.dropLast_append_getLast hne
  intro y hy
  rw [← hdecomp] at hy
  rcases List.mem_append.mp hy with hy | hy
  · exact Or.inl hy
  · exact Or.inr (List.mem_singleton.mp hy)

theorem dcore_relax_update {α : Type} [LinearOrderedAddCommMonoid α] (g : Graph α)
    (D : List String) (s : String) (S : List String) (u : String) (du : α)
    (dist : String → WithTop α) (prev : String → Option String)
    (pq : List (α × String)) (v : String) (w : α)
    (Hnn : ∀ a b w2, edgeW g a b = some w2 → 0 ≤ w2)
    (Hwf : GraphWF g)
    (hC : DCore g D s (u :: S) dist prev pq)
    (hdu : dist u = (du : WithTop α))
    (hvw : edgeW g u v = some w) (hvD : v ∉ D)
    (himp : ((du + w : α) : WithTop α) < dist v)
    (hvS : v ∉ u :: S) :
    DCore g D s (u :: S)
      (fun x => if x = v then ((du + w : α) : WithTop α) else dist x)
      (fun x => if x = v then some u else prev x)
      (pq ++ [(du + w, v)]) := by
  obtain ⟨pu, hpu, hnodup_u, hdrop_u, hrec_u⟩ := hC.chain u du hdu
  have hpu_elems : ∀ y ∈ pu, y ∈ u :: S := by
    intro y hy
    rcases isPath_mem_dropLast_or_end hpu y hy with hy2 | hy2
    · exact hdrop_u y hy2
    · rw [hy2]
      exact List.mem_cons_self _ _
  have hvpu : v ∉ pu := fun hv2 => hvS (hpu_elems v hv2)
  have hdu_nonneg : 0 ≤ du := isPath_cost_nonneg Hnn hpu
  have hw_nonneg : 0 ≤ w := Hnn u v w hvw
  have hvs : v ≠ s := by
    intro hveq
    rw [hveq, hC.dist_start] at himp
    have : du + w < 0 := WithTop.coe_lt_coe.mp himp
    have h2 : (0 : α) ≤ du + w := add_nonneg hdu_nonneg hw_nonneg
    exact absurd this (not_lt.mpr h2)
  have hdist2_le : ∀ x, (if x = v then ((du + w : α) : WithTop α) else dist x) ≤ dist x := by
    intro x
    by_cases hx : x = v
    · rw [if_pos hx, hx]
      exact le_of_lt himp
    · rw [if_neg hx]
  refine ⟨?_, ?_, ?_, ?_, ?_, ?_, ?_, ?_, hC.s_nodup, hC.s_keys⟩
  · rw [if_neg (Ne.symm hvs)]
    exact hC.dist_start
  · intro p hp
    rcases List.mem_append.mp hp with hp | hp
    · exact le_trans (hdist2_le p.2) (hC.pq_ge p hp)
    · rw [List.mem_singleton.mp hp]
      simp
  · intro p hp
    rcases List.mem_append.mp hp with hp | hp
    · exact hC.pq_keys p hp
    · rw [List.mem_singleton.mp hp]
      exact edgeW_target_mem_keys g u v w Hwf hvw
  · intro x t hxS hxt
    by_cases hx : x = v
    · rw [if_pos hx] at hxt
      have : t = du + w := (WithTop.coe_inj.mp hxt).symm
      rw [this, hx]
      exact List.mem_append_right _ (List.mem_singleton.mpr rfl)
    · rw [if_neg hx] at hxt
      exact List.mem_append_left _ (hC.frontier x t hxS hxt)
  · intro x hxS
    rw [if_neg (fun he : x = v => hvS (he ▸ hxS))]
    exact hC.processed_fin x hxS
  · intro x t hxS hxt
    rw [if_neg (fun he : x = v => hvS (he ▸ hxS))] at hxt
    exact hC.processed_min x t hxS hxt
  · intro x hxD
    rw [if_neg (fun he : x = v => hvD (he ▸ hxD))]
    exact hC.disabled_top x hxD
  · intro x t hxt
    by_cases hx : x = v
    · subst hx
      rw [if_pos rfl] at hxt
      have ht : t = du + w := (WithTop.coe_inj.mp hxt).symm
      subst ht
      refine ⟨pu ++ [x], isPath_snoc hpu hvw hvD, ?_, ?_, ?_⟩
      · rw [List.nodup_append]
        exact ⟨hnodup_u, List.nodup_singleton _, by
          intro y hy hy2
          rw [List.mem_singleton] at hy2
          exact hvpu (hy2 ▸ hy)⟩
      · rw [List.dropLast_concat]
        exact hpu_elems
      · intro f hf
        rw [List.length_append, List.length_singleton] at hf
        obtain ⟨f2, rfl⟩ : ∃ f2, f = f2 + 1 := ⟨f - 1, by omega⟩
        rw [reconstructPath_succ]
        rw [if_pos rfl]
        rw [reconstructPath_acc]
        have hrec2 : reconstructPath (fun y => if y = x then some u else prev y) f2
            (some u) [] = some pu := by
          apply reconstructPath_congr prev _ f2 u pu (hrec_u f2 (by omega))
          intro y hy
          rw [if_neg (fun he : y = x => hvpu (he ▸ hy))]
        rw [hrec2]
        rfl
    · rw [if_neg hx] at hxt
      obtain ⟨px, hpx, hnodup_x, hdrop_x, hrec_x⟩ := hC.chain x t hxt
      have hvpx : v ∉ px := by
        intro hv2
        rcases isPath_mem_dropLast_or_end hpx v hv2 with hy2 | hy2
        · exact hvS (hdrop_x v hy2)
        · exact hx hy2.symm
      refine ⟨px, hpx, hnodup_x, hdrop_x, ?_⟩
      intro f hf
      apply reconstructPath_congr prev _ f x px (hrec_x f hf)
      intro y hy
      rw [if_neg (fun he : y = v => hvpx (he ▸ hy))]

theorem relaxNeighbors_preserve {α : Type} [LinearOrderedAddCommMonoid α] (g : Graph α)
    (D : List String) (s : String) (S : List String) (u : String) (du : α)
    (Hnn : ∀ a b w, edgeW g a b = some w → 0 ≤ w)
    (Hwf : GraphWF g) :
    ∀ ns : List (String × α), (∀ q ∈ ns, q ∈ neighborsOf g u) →
    ∀ (dist : String → WithTop α) (prev : String → Option String)
      (pq : List (α × String)),
    DCore g D s (u :: S) dist prev pq →
    dist u = (du : WithTop α) →
    ∃ dist2 prev2 pq2,
      relaxNeighbors D u du ns dist prev pq = (dist2, prev2, pq2) ∧
      DCore g D s (u :: S) dist2 prev2 pq2 ∧
      (∀ x ∈ u :: S, dist2 x = dist x) ∧
      (∀ x, dist2 x ≤ dist x) ∧
      (∀ vw ∈ ns, vw.1 ∉ D → dist2 vw.1 ≤ ((du + vw.2 : α) : WithTop α)) ∧
      pq2.length ≤ pq.length + ns.length := by
  intro ns
  induction ns with
  | nil =>
    intro hns dist prev pq hC hdu
    exact ⟨dist, prev, pq, rfl, hC, fun x _ => rfl, fun x => le_refl _,
      by simp, by simp⟩
  | cons vw rest ih =>
    intro hns dist prev pq hC hdu
    by_cases hvD : vw.1 ∈ D
    · have hstep : relaxNeighbors D u du (vw :: rest) dist prev pq =
          relaxNeighbors D u du rest dist prev pq := by
        show (if vw.1 ∈ D then _ else _) = _
        rw [if_pos hvD]
      obtain ⟨dist2, prev2, pq2, heq, hC2, hfroz, hle, hpost, hlen⟩ :=
        ih (fun q hq => hns q (List.mem_cons_of_mem _ hq)) dist prev pq hC hdu
      refine ⟨dist2, prev2, pq2, hstep.trans heq, hC2, hfroz, hle, ?_, ?_⟩
      · intro q hq hqD
        rcases List.mem_cons.mp hq with hq2 | hq2
        · rw [hq2] at hqD
          exact absurd hvD hqD
        · exact hpost q hq2 hqD
      · rw [List.length_cons]
        omega
    · have hmemn : (vw.1, vw.2) ∈ neighborsOf g u := by
        have := hns vw (List.mem_cons_self _ _)
        rwa [Prod.mk.eta]
      have hvw_edge : edgeW g u vw.1 = some vw.2 :=
        edgeW_of_mem_neighbors g u vw.1 vw.2 Hwf hmemn
      by_cases himp : ((du + vw.2 : α) : WithTop α) < dist vw.1
      · have hvS : vw.1 ∉ u :: S := fun hin =>
          relax_no_improve g D s S u du dist prev pq hC hdu vw.1 vw.2
            hvw_edge hvD hin himp
        have hC2 := dcore_relax_update g D s S u du dist prev pq vw.1 vw.2
          Hnn Hwf hC hdu hvw_edge hvD himp hvS
        have hdu2 : (fun x => if x = vw.1 then ((du + vw.2 : α) : WithTop α)
            else dist x) u = (du : WithTop α) := by
          show (if u = vw.1 then ((du + vw.2 : α) : WithTop α) else dist u) =
            (du : WithTop α)
          rw [if_neg (fun he : u = vw.1 =>
            hvS (by rw [← he]; exact List.mem_cons_self u S))]
          exact hdu
        obtain ⟨dist2, prev2, pq2, heq, hC3, hfroz, hle, hpost, hlen⟩ :=
          ih (fun q hq => hns q (List.mem_cons_of_mem _ hq)) _ _ _ hC2 hdu2
        have hstep : relaxNeighbors D u du (vw :: rest) dist prev pq =
            relaxNeighbors D u du rest
              (fun x => if x = vw.1 then ((du + vw.2 : α) : WithTop α) else dist x)
              (fun x => if x = vw.1 then some u else prev x)
              (pq ++ [(du + vw.2, vw.1)]) := by
          show (if vw.1 ∈ D then _
            else if ((du + vw.2 : α) : WithTop α) < dist vw.1 then _ else _) = _
          rw [if_neg hvD, if_pos himp]
        refine ⟨dist2, prev2, pq2, hstep.trans heq, hC3, ?_, ?_, ?_, ?_⟩
        · intro x hx
          rw [hfroz x hx,
            if_neg (fun he : x = vw.1 => hvS (he ▸ hx))]
        · intro x
          refine le_trans (hle x) ?_
          by_cases hx : x = vw.1
          · rw [if_pos hx, hx]
            exact le_of_lt himp
          · rw [if_neg hx]
        · intro q hq hqD
          rcases List.mem_cons.mp hq with hq2 | hq2
          · rw [hq2]
            refine le_trans (hle vw.1) ?_
            rw [if_pos rfl]
          · exact hpost q hq2 hqD
        · rw [List.length_append, List.length_singleton] at hlen
          rw [List.length_cons]
          omega
      · have hstep : relaxNeighbors D u du (vw :: rest) dist prev pq =
            relaxNeighbors D u du rest dist prev pq := by
          show (if vw.1 ∈ D then _
            else if ((du + vw.2 : α) : WithTop α) < dist vw.1 then _ else _) = _
          rw [if_neg hvD, if_neg himp]
        obtain ⟨dist2, prev2, pq2, heq, hC2, hfroz, hle, hpost, hlen⟩ :=
          ih (fun q hq => hns q (List.mem_cons_of_mem _ hq)) dist prev pq hC hdu
        refine ⟨dist2, prev2, pq2, hstep.trans heq, hC2, hfroz, hle, ?_, ?_⟩
        · intro q hq hqD
          rcases List.mem_cons.mp hq with hq2 | hq2
          · rw [hq2]
            exact le_trans (hle vw.1) (not_lt.mp himp)
          · exact hpost q hq2 hqD
        · rw [List.length_cons]
          omega

theorem contains_eq_false_of_not_mem (l : List String) (x : String) (h : x ∉ l) :
    l.contains x = false := by
  cases hc : l.contains x with
  | false => rfl
  | true => exact absurd (List.mem_of_elem_eq_true hc) h

theorem budget_filter_congr {α : Type} (g : Graph α) (S S2 : List String)
    (h : ∀ p ∈ g, S2.contains p.1 = S.contains p.1) :
    ((g.filter (fun p => !(S2.contains p.1))).map (fun p => p.2.length + 1)).sum =
      ((g.filter (fun p => !(S.contains p.1))).map (fun p => p.2.length + 1)).sum := by
  induction g with
  | nil => rfl
  | cons p g2 ih =>
    have hp := h p (List.mem_cons_self _ _)
    have ih2 := ih (fun q hq => h q (List.mem_cons_of_mem _ hq))
    cases hc : S.contains p.1 with
    | true =>
      rw [List.filter_cons, List.filter_cons]
      rw [hc] at hp
      rw [hp, hc]
      simpa using ih2
    | false =>
      rw [List.filter_cons, List.filter_cons]
      rw [hc] at hp
      rw [hp, hc]
      simpa using ih2

theorem remBudget_process {α : Type} (g : Graph α) (S : List String) (u : String)
    (hnd : (keys g).Nodup) (huK : u ∈ keys g) (huS : u ∉ S) :
    ((g.filter (fun p => !((u :: S).contains p.1))).map (fun p => p.2.length + 1)).sum +
        (neighborsOf g u).length + 1 =
      ((g.filter (fun p => !(S.contains p.1))).map (fun p => p.2.length + 1)).sum := by
  induction g with
  | nil => simp [keys] at huK
  | cons p g2 ih =>
    rw [keys_cons] at hnd huK
    by_cases hp1 : p.1 = u
    · have hSc : S.contains p.1 = false :=
        contains_eq_false_of_not_mem S p.1 (by rw [hp1]; exact huS)
      have huSc : (u :: S).contains p.1 = true := by
        rw [hp1]
        exact List.elem_eq_true_of_mem (List.mem_cons_self _ _)
      have hcongr : ∀ q ∈ g2, (u :: S).contains q.1 = S.contains q.1 := by
        intro q hq
        have hq1 : q.1 ≠ u := by
          intro he
          exact (List.nodup_cons.mp hnd).1 (hp1 ▸ he ▸ List.mem_map_of_mem Prod.fst hq)
        show (u :: S).elem q.1 = S.elem q.1
        rw [List.elem_cons]
        rw [beq_eq_false_iff_ne.mpr hq1]
      have hnb : neighborsOf (p :: g2) u = p.2 := by
        unfold neighborsOf dictGetD
        rw [dictGet_cons, if_pos hp1]
        rfl
      have hrw := budget_filter_congr g2 S (u :: S) hcongr
      simp only [List.filter_cons, hSc, huSc, hnb, Bool.not_true, Bool.not_false,
        Bool.false_eq_true, if_false, if_true, List.map_cons, List.sum_cons]
      rw [hrw]
      omega
    · have hcs : (u :: S).contains p.1 = S.contains p.1 := by
        show (u :: S).elem p.1 = S.elem p.1
        rw [List.elem_cons, beq_eq_false_iff_ne.mpr hp1]
      have hnb : neighborsOf (p :: g2) u = neighborsOf g2 u := by
        unfold neighborsOf dictGetD
        rw [dictGet_cons, if_neg hp1]
      have huK2 : u ∈ keys g2 := by
        rcases List.mem_cons.mp huK with h2 | h2
        · exact absurd h2.symm hp1
        · exact h2
      have ih2 := ih (List.nodup_cons.mp hnd).2 huK2
      simp only [List.filter_cons, hcs, hnb]
      cases hc : S.contains p.1 with
      | true =>
        simp only [Bool.not_true, Bool.false_eq_true, if_false]
        exact ih2
      | false =>
        simp only [Bool.not_false, if_true, List.map_cons, List.sum_cons]
        omega

theorem dijkstraLoop_step {α : Type} [LinearOrderedAddCommMonoid α] (g : Graph α)
    (e : String) (D : List String) (f : Nat) (dist : String → WithTop α)
    (prev : String → Option String) (pq : List (α × String)) :
    dijkstraLoop g e D (f + 1) dist prev pq =
      match popMin pq with
      | none => some none
      | some (du, rest) =>
        if du.2 ∈ D then dijkstraLoop g e D f dist prev rest
        else if dist du.2 < (du.1 : WithTop α) then
          dijkstraLoop g e D f dist prev rest
        else if du.2 = e then
          match reconstructPath prev f (some du.2) [] with
          | none => none
          | some path => some (some (dist e, path))
        else
          match relaxNeighbors D du.2 du.1 (neighborsOf g du.2) dist prev rest with
          | (dist2, prev2, pq2) => dijkstraLoop g e D f dist2 prev2 pq2 := rfl

theorem dcore_pop_rest {α : Type} [LinearOrderedAddCommMonoid α] (g : Graph α)
    (D : List String) (s : String) (S : List String) (dist : String → WithTop α)
    (prev : String → Option String) (pq : List (α × String)) (du : α × String)
    (rest : List (α × String))
    (hC : DCore g D s S dist prev pq)
    (hpop : popMin pq = some (du, rest))
    (hne : du.2 ∉ S → dist du.2 ≠ (du.1 : WithTop α)) :
    DCore g D s S dist prev rest := by
  have hperm := popMin_perm pq du rest hpop
  have hsub : ∀ p ∈ rest, p ∈ pq := fun p hp =>
    hperm.symm.subset (List.mem_cons_of_mem _ hp)
  refine ⟨hC.dist_start, fun p hp => hC.pq_ge p (hsub p hp),
    fun p hp => hC.pq_keys p (hsub p hp), ?_, hC.processed_fin,
    hC.processed_min, hC.disabled_top, hC.chain, hC.s_nodup, hC.s_keys⟩
  intro v t hvS hvt
  have hmem : (t, v) ∈ du :: rest := hperm.subset (hC.frontier v t hvS hvt)
  rcases List.mem_cons.mp hmem with h2 | h2
  · exfalso
    have hv2 : du.2 ∉ S := by rw [← h2]; exact hvS
    apply hne hv2
    rw [← h2]
    exact hvt
  · exact h2

theorem dijkstraLoop_correct {α : Type} [LinearOrderedAddCommMonoid α] (g : Graph α)
    (D : List String) (s e : String)
    (Hnn : ∀ a b w, edgeW g a b = some w → 0 ≤ w)
    (Hwf : GraphWF g) :
    ∀ (fuel : Nat) (S : List String) (dist : String → WithTop α)
      (prev : String → Option String) (pq : List (α × String)),
      DCore g D s S dist prev pq → Relaxed g D S dist → e ∉ S →
      remBudget g S pq + (keys g).length + 2 ≤ fuel →
      ∃ res, dijkstraLoop g e D fuel dist prev pq = some res ∧
        ((res = none ∧ ∀ (p : List String) (c : α), ¬ IsPath g D s e p c) ∨
          ∃ (t : α) (p : List String), res = some ((t : WithTop α), p) ∧
            IsPath g D s e p t ∧
            ∀ (q : List String) (c : α), IsPath g D s e q c → t ≤ c) := by
  intro fuel
  induction fuel with
  | zero =>
    intro S dist prev pq hC hR heS hfuel
    exact absurd hfuel (by omega)
  | succ f ih =>
    intro S dist prev pq hC hR heS hfuel
    cases hpop : popMin pq with
    | none =>
      have hstep : dijkstraLoop g e D (f + 1) dist prev pq = some none := by
        rw [dijkstraLoop_step, hpop]
      refine ⟨none, hstep, Or.inl ⟨rfl, ?_⟩⟩
      have hpq : pq = [] := (popMin_eq_none_iff pq).mp hpop
      intro p c hp
      by_cases hsS : s ∈ S
      · obtain ⟨ub, vb, wb, c1, hubS, hvbS, hwb, hvbD, ⟨q, hq⟩, -⟩ :=
          isPath_boundary g D S s e p c Hnn hp hsS heS
        cases htb : dist ub with
        | top => exact hC.processed_fin ub hubS htb
        | coe tb =>
          have hmemn : (vb, wb) ∈ neighborsOf g ub := mem_of_dictGet _ _ _ hwb
          have hdvb : dist vb ≤ ((tb + wb : α) : WithTop α) :=
            hR ub tb hubS htb (vb, wb) hmemn hvbD
          cases htv : dist vb with
          | top =>
            rw [htv] at hdvb
            exact absurd hdvb (by simp)
          | coe tv =>
            have hfr := hC.frontier vb tv hvbS htv
            rw [hpq] at hfr
            exact absurd hfr (List.not_mem_nil _)
      · have hfr := hC.frontier s 0 hsS hC.dist_start
        rw [hpq] at hfr
        exact absurd hfr (List.not_mem_nil _)
    | some pr =>
      obtain ⟨du, rest⟩ := pr
      obtain ⟨d, u⟩ := du
      have hmem_du : (d, u) ∈ pq := popMin_mem pq (d, u) rest hpop
      have hperm := popMin_perm pq (d, u) rest hpop
      have hlen_pq : pq.length = rest.length + 1 := by
        rw [hperm.length_eq]
        rfl
      have hstep0 : dijkstraLoop g e D (f + 1) dist prev pq =
          (if u ∈ D then dijkstraLoop g e D f dist prev rest
            else if dist u < (d : WithTop α) then
              dijkstraLoop g e D f dist prev rest
            else if u = e then
              match reconstructPath prev f (some u) [] with
              | none => none
              | some path => some (some (dist e, path))
            else
              match relaxNeighbors D u d (neighborsOf g u) dist prev rest with
              | (dist2, prev2, pq2) => dijkstraLoop g e D f dist2 prev2 pq2) := by
        rw [dijkstraLoop_step, hpop]
      by_cases hD : u ∈ D
      · rw [if_pos hD] at hstep0
        have hne : u ∉ S → dist u ≠ (d : WithTop α) := by
          intro _ hq
          rw [hC.disabled_top u hD] at hq
          exact WithTop.top_ne_coe hq
        have hC2 := dcore_pop_rest g D s S dist prev pq (d, u) rest hC hpop hne
        have hbud : remBudget g S rest + (keys g).length + 2 ≤ f := by
          unfold remBudget at hfuel ⊢
          omega
        obtain ⟨res, heq, hres⟩ := ih S dist prev rest hC2 hR heS hbud
        exact ⟨res, hstep0.trans heq, hres⟩
      · rw [if_neg hD] at hstep0
        by_cases hst : dist u < (d : WithTop α)
        · rw [if_pos hst] at hstep0
          have hne : u ∉ S → dist u ≠ (d : WithTop α) := fun _ hq =>
            absurd hst (by rw [hq]; exact lt_irrefl _)
          have hC2 := dcore_pop_rest g D s S dist prev pq (d, u) rest hC hpop hne
          have hbud : remBudget g S rest + (keys g).length + 2 ≤ f := by
            unfold remBudget at hfuel ⊢
            omega
          obtain ⟨res, heq, hres⟩ := ih S dist prev rest hC2 hR heS hbud
          exact ⟨res, hstep0.trans heq, hres⟩
        · rw [if_neg hst] at hstep0
          have hdeq : dist u = (d : WithTop α) :=
            le_antisymm (hC.pq_ge (d, u) hmem_du) (not_lt.mp hst)
          by_cases he : u = e
          · subst he
            rw [if_pos rfl] at hstep0
            obtain ⟨p, hp, hnodup, hdrop, hrec⟩ := hC.chain u d hdeq
            have hpne : p ≠ [] := (isPath_shape hp).1
            have hplen : 1 ≤ p.length := List.length_pos.mpr hpne
            have hdl : p.dropLast.length = p.length - 1 := List.length_dropLast p
            have hdl_nodup : p.dropLast.Nodup :=
              List.Nodup.sublist (List.dropLast_sublist p) hnodup
            have hlen1 : p.dropLast.length ≤ S.length :=
              nodup_subset_length p.dropLast S hdl_nodup hdrop
            have huK : u ∈ keys g := hC.pq_keys (d, u) hmem_du
            have hSK : S.length + 1 ≤ (keys g).length := by
              have hsubk : ∀ x ∈ u :: S, x ∈ keys g := by
                intro x hx
                rcases List.mem_cons.mp hx with hx2 | hx2
                · rw [hx2]; exact huK
                · exact hC.s_keys x hx2
              have := nodup_subset_length (u :: S) (keys g)
                (List.nodup_cons.mpr ⟨heS, hC.s_nodup⟩) hsubk
              rw [List.length_cons] at this
              omega
            have hrecf : reconstructPath prev f (some u) [] = some p := by
              apply hrec
              have h0 : 0 ≤ remBudget g S pq := Nat.zero_le _
              omega
            refine ⟨some ((d : WithTop α), p), ?_,
              Or.inr ⟨d, p, rfl, hp, ?_⟩⟩
            · rw [hstep0, hrecf, hdeq]
            · intro q c hq
              exact pop_minimal g D s S dist prev pq Hnn hC hR d u rest hpop heS q c hq
          · rw [if_neg he] at hstep0
            by_cases huS : u ∈ S
            · have hnoop : relaxNeighbors D u d (neighborsOf g u) dist prev rest =
                  (dist, prev, rest) := by
                apply relaxNeighbors_noop
                intro vw hvw hvD2
                exact not_lt.mpr (hR u d huS hdeq vw hvw hvD2)
              rw [hnoop] at hstep0
              have hne : u ∉ S → dist u ≠ (d : WithTop α) := fun hq =>
                absurd huS hq
              have hC2 := dcore_pop_rest g D s S dist prev pq (d, u) rest hC hpop hne
              have hbud : remBudget g S rest + (keys g).length + 2 ≤ f := by
                unfold remBudget at hfuel ⊢
                omega
              obtain ⟨res, heq, hres⟩ := ih S dist prev rest hC2 hR heS hbud
              exact ⟨res, hstep0.trans heq, hres⟩
            · have hC1 : DCore g D s (u :: S) dist prev rest := by
                refine ⟨hC.dist_start, ?_, ?_, ?_, ?_, ?_, hC.disabled_top, ?_,
                  List.nodup_cons.mpr ⟨huS, hC.s_nodup⟩, ?_⟩
                · intro q hq
                  exact hC.pq_ge q (hperm.symm.subset (List.mem_cons_of_mem _ hq))
                · intro q hq
                  exact hC.pq_keys q (hperm.symm.subset (List.mem_cons_of_mem _ hq))
                · intro v t hv hvt
                  have hvS : v ∉ S := fun h2 => hv (List.mem_cons_of_mem _ h2)
                  have hmem : (t, v) ∈ (d, u) :: rest :=
                    hperm.subset (hC.frontier v t hvS hvt)
                  rcases List.mem_cons.mp hmem with h2 | h2
                  · exfalso
                    apply hv
                    have : v = u := congrArg Prod.snd h2
                    rw [this]
                    exact List.mem_cons_self _ _
                  · exact h2
                · intro x hx
                  rcases List.mem_cons.mp hx with hx2 | hx2
                  · rw [hx2, hdeq]
                    exact WithTop.coe_ne_top
                  · exact hC.processed_fin x hx2
                · intro x t hx hxt
                  rcases List.mem_cons.mp hx with hx2 | hx2
                  · subst hx2
                    rw [hdeq] at hxt
                    have ht : d = t := WithTop.coe_inj.mp hxt
                    subst ht
                    intro p c hpc
                    exact pop_minimal g D s S dist prev pq Hnn hC hR d x rest
                      hpop huS p c hpc
                  · exact hC.processed_min x t hx2 hxt
                · intro v t hvt
                  obtain ⟨p, h1, h2, h3, h4⟩ := hC.chain v t hvt
                  exact ⟨p, h1, h2, fun x hx => List.mem_cons_of_mem _ (h3 x hx), h4⟩
                · intro x hx
                  rcases List.mem_cons.mp hx with hx2 | hx2
                  · rw [hx2]
                    exact hC.pq_keys (d, u) hmem_du
                  · exact hC.s_keys x hx2
              obtain ⟨dist2, prev2, pq2, heqr, hC2, hfroz, hle, hpost, hlen2⟩ :=
                relaxNeighbors_preserve g D s S u d Hnn Hwf (neighborsOf g u)
                  (fun q hq => hq) dist prev rest hC1 hdeq
              rw [heqr] at hstep0
              have hR2 : Relaxed g D (u :: S) dist2 := by
                intro x t hx hxt vw hvw hvD2
                rcases List.mem_cons.mp hx with hx2 | hx2
                · subst hx2
                  have hdx : dist2 x = dist x := hfroz x (List.mem_cons_self _ _)
                  rw [hdx, hdeq] at hxt
                  have ht : d = t := WithTop.coe_inj.mp hxt
                  subst ht
                  exact hpost vw hvw hvD2
                · have hdx : dist2 x = dist x := hfroz x (List.mem_cons_of_mem _ hx2)
                  rw [hdx] at hxt
                  exact le_trans (hle vw.1) (hR x t hx2 hxt vw hvw hvD2)
              have heS2 : e ∉ u :: S := by
                intro hin
                rcases List.mem_cons.mp hin with h2 | h2
                · exact he h2.symm
                · exact heS h2
              have hbud2 : remBudget g (u :: S) pq2 + (keys g).length + 2 ≤ f := by
                have hproc := remBudget_process g S u Hwf.1
                  (hC.pq_keys (d, u) hmem_du) huS
                unfold remBudget at hfuel ⊢
                omega
              obtain ⟨res, heq2, hres⟩ := ih (u :: S) dist2 prev2 pq2 hC2 hR2 heS2 hbud2
              exact ⟨res, hstep0.trans heq2, hres⟩

theorem build_graph_wf (l : List (String × StationRecord)) (sp pen : ℝ)
    (g : Graph ℝ) (det : List (String × StationDetail))
    (hnd : (l.map Prod.fst).Nodup)
    (hb : build_metro_graph l sp pen = Except.ok (g, det))
    (hsp : 0 < sp) (hpen : 0 ≤ pen) :
    GraphWF g ∧ ∀ a b w, edgeW g a b = some w → 0 ≤ w := by
  obtain ⟨⟨hGood, hkeys, hinner⟩, hkdet⟩ := build_pass2 l sp pen g det hnd hb
  have hknd : (keys g).Nodup := by rw [hkeys]; exact hnd
  have hmemdet : ∀ (b : String) (db : StationDetail),
      dictGet det b = some db → b ∈ keys g := by
    intro b db hdb
    rw [hkeys, ← hkdet]
    exact List.mem_map_of_mem Prod.fst (mem_of_dictGet _ _ _ hdb)
  refine ⟨⟨hknd, ?_⟩, ?_⟩
  · intro p hp
    refine ⟨hinner p hp, ?_⟩
    intro q hq
    have hq2 : (q.1, q.2) ∈ p.2 := by rw [Prod.mk.eta]; exact hq
    have hp2 : (p.1, p.2) ∈ g := by rw [Prod.mk.eta]; exact hp
    have hgp : dictGet g p.1 = some p.2 := dictGet_of_mem g p.1 p.2 hknd hp2
    have hedge : edgeW g p.1 q.1 = some q.2 := by
      unfold edgeW neighborsOf dictGetD
      rw [hgp]
      exact dictGet_of_mem p.2 q.1 q.2 (hinner p hp) hq2
    obtain ⟨da, db, la1, lo1, la2, lo2, -, hdb, -, -, -, -, -, -⟩ :=
      hGood p.1 q.1 q.2 hedge
    exact hmemdet q.1 db hdb
  · intro a b w hw
    obtain ⟨da, db, la1, lo1, la2, lo2, -, -, -, -, -, -, hval, -⟩ := hGood a b w hw
    have ht := edgeTime_ge_term sp pen la1 lo1 la2 lo2 da.lines db.lines hsp hpen
    rw [hval]
    exact le_trans ht.2 ht.1

theorem dcore_init {α : Type} [LinearOrderedAddCommMonoid α] (g : Graph α)
    (D : List String) (s : String) (dist : String → WithTop α)
    (hsD : s ∉ D) (hsK : s ∈ keys g)
    (hdist : ∀ v, dist v = if v = s then ((0 : α) : WithTop α) else ⊤) :
    DCore g D s [] dist (fun _ => none) [((0 : α), s)] ∧ Relaxed g D [] dist := by
  constructor
  · refine ⟨?_, ?_, ?_, ?_, ?_, ?_, ?_, ?_, List.nodup_nil, ?_⟩
    · rw [hdist s, if_pos rfl]
    · intro p hp
      rw [List.mem_singleton] at hp
      subst hp
      simp [hdist]
    · intro p hp
      rw [List.mem_singleton] at hp
      subst hp
      exact hsK
    · intro v t hv hvt
      rw [hdist v] at hvt
      by_cases hvs : v = s
      · subst hvs
        rw [if_pos rfl] at hvt
        have ht : (0 : α) = t := WithTop.coe_inj.mp hvt
        subst ht
        exact List.mem_singleton.mpr rfl
      · rw [if_neg hvs] at hvt
        exact absurd hvt WithTop.top_ne_coe
    · intro x hx
      exact absurd hx (List.not_mem_nil _)
    · intro x t hx
      exact absurd hx (List.not_mem_nil _)
    · intro v hvD
      rw [hdist v, if_neg (fun hvs : v = s => hsD (hvs ▸ hvD))]
    · intro v t hvt
      rw [hdist v] at hvt
      by_cases hvs : v = s
      · subst hvs
        rw [if_pos rfl] at hvt
        have ht : (0 : α) = t := WithTop.coe_inj.mp hvt
        subst ht
        refine ⟨[v], IsPath.single v hsD, List.nodup_singleton _, by simp, ?_⟩
        intro f hf
        have hf2 : 2 ≤ f := by simpa using hf
        obtain ⟨f2, rfl⟩ : ∃ f2, f = f2 + 2 := ⟨f - 2, by omega⟩
        rfl
      · rw [if_neg hvs] at hvt
        exact absurd hvt WithTop.top_ne_coe
    · intro x hx
      exact absurd hx (List.not_mem_nil _)
  · intro x t hx
    exact absurd hx (List.not_mem_nil _)

theorem dijkstra_correct_core {α : Type} [LinearOrderedAddCommMonoid α] (g : Graph α)
    (D : List String) (s e : String)
    (Hnn : ∀ a b w, edgeW g a b = some w → 0 ≤ w)
    (Hwf : GraphWF g) (hsK : s ∈ keys g)
    (fuel : Nat) (hfuel : fuelBound g ≤ fuel) :
    ∃ res, dijkstra g s e D fuel = some res ∧
      ((res = none ∧ ∀ (p : List String) (c : α), ¬ IsPath g D s e p c) ∨
        ∃ (t : α) (p : List String), res = some ((t : WithTop α), p) ∧
          IsPath g D s e p t ∧
          ∀ (q : List String) (c : α), IsPath g D s e q c → t ≤ c) := by
  by_cases hsD : s ∈ D
  · obtain ⟨f, rfl⟩ : ∃ f, fuel = f + 2 :=
      ⟨fuel - 2, by unfold fuelBound at hfuel; omega⟩
    refine ⟨none, ?_, Or.inl ⟨rfl, fun p c hp => isPath_start_not_disabled hp hsD⟩⟩
    show dijkstraLoop g e D (f + 1 + 1) _ _ _ = some none
    simp [dijkstraLoop, popMin, hsD]
  · obtain ⟨hC0, hR0⟩ := dcore_init g D s
      (fun node => if node = s then ((0 : α) : WithTop α) else ⊤)
      hsD hsK (fun v => rfl)
    have hbud : remBudget g [] [((0 : α), s)] + (keys g).length + 2 ≤ fuel := by
      unfold fuelBound remBudget at hfuel
      unfold remBudget
      simp only [List.length_nil, List.length_cons] at hfuel ⊢
      omega
    obtain ⟨res, heq, hres⟩ := dijkstraLoop_correct g D s e Hnn Hwf fuel []
      (fun node => if node = s then ((0 : α) : WithTop α) else ⊤)
      (fun _ => none) [((0 : α), s)] hC0 hR0 (List.not_mem_nil e) hbud
    exact ⟨res, heq, hres⟩

theorem dijkstra_self {α : Type} [LinearOrderedAddCommMonoid α] (g : Graph α)
    (s : String) (D : List String) (hsD : s ∉ D) (fuel : Nat) (hf : 3 ≤ fuel) :
    dijkstra g s s D fuel = some (some (((0 : α) : WithTop α), [s])) := by
  obtain ⟨f, rfl⟩ : ∃ f, fuel = f + 3 := ⟨fuel - 3, by omega⟩
  have hrec : reconstructPath (fun _ : String => none) (f + 2) (some s) [] = some [s] := by
    show reconstructPath _ (f + 1 + 1) _ _ = _
    rw [reconstructPath_succ]
    rfl
  show dijkstraLoop g s D (f + 2 + 1) _ _ _ = _
  simp [dijkstraLoop, popMin, hsD, hrec]

/-- C1: for every graph `build_metro_graph` produces (with positive speed and
nonnegative penalty), every start and end that are keys of the graph, and every
disabled set, at sufficient fuel `dijkstra` terminates and either returns the
no-path result while no start-to-end path exists in the subgraph obtained by
removing the disabled stations and their incident edges, or returns a pair
`(time, path)` whose path realises `time` and whose `time` is minimal over all
such paths — valid because every built edge weight is nonnegative. -/
theorem dijkstra_correct (l : List (String × StationRecord)) (sp pen : ℝ)
    (g : Graph ℝ) (det : List (String × StationDetail))
    (hnd : (l.map Prod.fst).Nodup)
    (hb : build_metro_graph l sp pen = Except.ok (g, det))
    (hsp : 0 < sp) (hpen : 0 ≤ pen)
    (s e : String) (D : List String) (hs : s ∈ keys g) (he : e ∈ keys g)
    (fuel : Nat) (hfuel : fuelBound g ≤ fuel) :
    ∃ res, dijkstra g s e D fuel = some res ∧
      ((res = none ∧ ∀ (p : List String) (c : ℝ), ¬ IsPath g D s e p c) ∨
        ∃ (t : ℝ) (p : List String), res = some ((t : WithTop ℝ), p) ∧
          IsPath g D s e p t ∧
          ∀ (q : List String) (c : ℝ), IsPath g D s e q c → t ≤ c) := by
  obtain ⟨Hwf, Hnn⟩ := build_graph_wf l sp pen g det hnd hb hsp hpen
  exact dijkstra_correct_core g D s e Hnn Hwf hs fuel hfuel

/-- Witness for C1 on the three-station dataset (`B` isolated, `A`–`C` the
only edge). -/
theorem dijkstra_correct_witness :
    ∃ res, dijkstra (buildGraph stationsIso 40 4) "A" "C" [] 20 = some res ∧
      ((res = none ∧ ∀ (p : List String) (c : ℝ),
          ¬ IsPath (buildGraph stationsIso 40 4) [] "A" "C" p c) ∨
        ∃ (t : ℝ) (p : List String), res = some ((t : WithTop ℝ), p) ∧
          IsPath (buildGraph stationsIso 40 4) [] "A" "C" p t ∧
          ∀ (q : List String) (c : ℝ),
            IsPath (buildGraph stationsIso 40 4) [] "A" "C" q c → t ≤ c) :=
  dijkstra_correct stationsIso 40 4 (buildGraph stationsIso 40 4)
    (buildDetails stationsIso 40 4) (by decide) rfl (by norm_num) (by norm_num)
    "A" "C" []
    (by rw [show keys (buildGraph stationsIso 40 4) = ["A", "B", "C"] from rfl]; decide)
    (by rw [show keys (buildGraph stationsIso 40 4) = ["A", "B", "C"] from rfl]; decide)
    20 (by rw [show fuelBound (buildGraph stationsIso 40 4) = 13 from rfl]; omega)

/-- C7: every successful `dijkstra` result `(time, path)` has a non-empty path
whose first element is the start, whose last element is the end, and whose
every consecutive pair is an edge of the graph; and for `start = end` (not
disabled) the result is `(0, [start])`. -/
theorem dijkstra_path_shape {α : Type} [LinearOrderedAddCommMonoid α] (g : Graph α)
    (D : List String) (s e : String)
    (Hnn : NonnegWeights g) (Hwf : GraphWF g) (hsK : s ∈ keys g)
    (fuel : Nat) (hfuel : fuelBound g ≤ fuel) :
    (∀ (t : WithTop α) (p : List String),
      dijkstra g s e D fuel = some (some (t, p)) →
      p ≠ [] ∧ p.head? = some s ∧ p.getLast? = some e ∧
        List.Chain' (fun u v => (edgeW g u v).isSome) p) ∧
    (s = e → s ∉ D → dijkstra g s e D fuel = some (some (((0 : α) : WithTop α), [s]))) := by
  constructor
  · intro t p hres
    obtain ⟨res, heq, hcase⟩ := dijkstra_correct_core g D s e
      (fun a b w hw => nonneg_edgeW g Hnn a b w hw) Hwf hsK fuel hfuel
    rw [heq] at hres
    have hres2 : res = some (t, p) := Option.some.inj hres
    rcases hcase with ⟨hn, -⟩ | ⟨t2, p2, hr, hp2, -⟩
    · rw [hn] at hres2
      exact Option.noConfusion hres2
    · rw [hr] at hres2
      have h2 : ((t2 : WithTop α), p2) = (t, p) := Option.some.inj hres2
      have hpeq : p2 = p := congrArg Prod.snd h2
      subst hpeq
      exact isPath_shape hp2
  · intro hse hsD
    subst hse
    refine dijkstra_self g s D hsD fuel ?_
    unfold fuelBound at hfuel
    omega

/-- Witness for C7 on the abstract scenario graph, at the `X → Z` route and at
the `start = end` query. -/
theorem dijkstra_path_shape_witness :
    ((["X", "Y", "Z"] : List String) ≠ [] ∧
        (["X", "Y", "Z"] : List String).head? = some "X" ∧
        (["X", "Y", "Z"] : List String).getLast? = some "Z" ∧
        List.Chain' (fun u v => (edgeW gScenario u v).isSome) ["X", "Y", "Z"]) ∧
      dijkstra gScenario "X" "X" [] 20 =
        some (some (((0 : ℕ) : WithTop ℕ), ["X"])) :=
  ⟨(dijkstra_path_shape gScenario [] "X" "Z" (by unfold NonnegWeights; decide)
      (by unfold GraphWF; decide) (by decide)
      20 (by decide)).1 (((8 : ℕ) : WithTop ℕ)) ["X", "Y", "Z"] (by decide),
    (dijkstra_path_shape gScenario [] "X" "X" (by unfold NonnegWeights; decide)
      (by unfold GraphWF; decide) (by decide)
      20 (by decide)).2 rfl (by decide)⟩

/-- C9: for every successful `dijkstra` result `(time, path)`, the returned
time is finite and equals the sum of `graph[u][v]` over the consecutive pairs
`(u, v)` of the returned path. -/
theorem dijkstra_time_eq_pathSum {α : Type} [LinearOrderedAddCommMonoid α]
    (g : Graph α) (D : List String) (s e : String)
    (Hnn : NonnegWeights g) (Hwf : GraphWF g) (hsK : s ∈ keys g)
    (fuel : Nat) (hfuel : fuelBound g ≤ fuel) :
    ∀ (t : WithTop α) (p : List String),
      dijkstra g s e D fuel = some (some (t, p)) →
      ∃ tc : α, t = (tc : WithTop α) ∧ pathSum g p = some tc := by
  intro t p hres
  obtain ⟨res, heq, hcase⟩ := dijkstra_correct_core g D s e
    (fun a b w hw => nonneg_edgeW g Hnn a b w hw) Hwf hsK fuel hfuel
  rw [heq] at hres
  have hres2 : res = some (t, p) := Option.some.inj hres
  rcases hcase with ⟨hn, -⟩ | ⟨t2, p2, hr, hp2, -⟩
  · rw [hn] at hres2
    exact Option.noConfusion hres2
  · rw [hr] at hres2
    have h2 : ((t2 : WithTop α), p2) = (t, p) := Option.some.inj hres2
    have hpeq : p2 = p := congrArg Prod.snd h2
    have hteq : ((t2 : WithTop α)) = t := congrArg Prod.fst h2
    subst hpeq
    exact ⟨t2, hteq.symm, isPath_pathSum hp2⟩

/-- Witness for C9 on the abstract scenario graph: the reported 8 minutes is
the edge-weight sum of the reported route `X, Y, Z`. -/
theorem dijkstra_time_eq_pathSum_witness :
    ∃ tc : ℕ, ((8 : ℕ) : WithTop ℕ) = (tc : WithTop ℕ) ∧
      pathSum gScenario ["X", "Y", "Z"] = some tc :=
  dijkstra_time_eq_pathSum gScenario [] "X" "Z" (by unfold NonnegWeights; decide)
    (by unfold GraphWF; decide) (by decide)
    20 (by decide) (((8 : ℕ) : WithTop ℕ)) ["X", "Y", "Z"] (by decide)
